import Mathlib

/-!
Shallow embedding of the Twiga lexical search engine core
(repository files twiga_core.py, twiga_core_search.py, twiga_core_index.py).

Conventions of the embedding:

* DuckDB tables are lists of rows; SQL SELECT/WHERE/GROUP BY/HAVING are list
  operations; window functions are explicit recursions over the rows sorted
  by the ORDER BY key.  The ordering of GROUP BY output, which SQL leaves
  unspecified and which no downstream step of the source depends on, is made
  deterministic in a canonical way.
* SQL INTEGER is Nat (all stored ids and positions are nonnegative), except
  where SQL subtraction can go negative (ROW_NUMBER() - position in
  twiga_exact_phrase_searcher), where Int is used.
* SQL VARCHAR is List Char.
* The DOUBLE value ROUND(matching_words / words_total, 5) is modelled in
  exact fixed-point arithmetic as the natural number
  round(matching_words / words_total * 100000); SQL NULL is Option.none.
* The external primitive hashlib.blake2b is modelled by a deterministic
  stand-in function with the same interface (message bytes and digest size
  in, hex string of 2 * digest_size characters out).
* Tokenization (the external `tokenizers` normalizer/pre-tokenizer pipeline)
  is modelled by taking the already pre-tokenized word list as input.
-/

/-! ### Characters and decimal rendering -/

/-- The decimal digit character for `n < 10`. -/
def digitChar (n : Nat) : Char := Char.ofNat (48 + n)

/-- Lowercase hex digit character for `n < 16`. -/
def hexChar (n : Nat) : Char := if n < 10 then digitChar n else Char.ofNat (87 + n)

/-- Fuel-based core of decimal rendering, structurally recursive so that it is
kernel-computable.  `natCharsGo fuel n acc` prepends the decimal digits of `n`
to `acc`, provided `fuel ≥ number of digits of n`. -/
def natCharsGo : Nat → Nat → List Char → List Char
  | _, 0, acc => acc
  | 0, _ + 1, acc => acc
  | fuel + 1, n + 1, acc => natCharsGo fuel ((n + 1) / 10) (digitChar ((n + 1) % 10) :: acc)

/-- Decimal rendering of a natural number, CAST(n AS VARCHAR) of the SQL
engine (`n` itself is always sufficient fuel). -/
def natChars (n : Nat) : List Char := if n = 0 then ['0'] else natCharsGo n n []

/-- Numeric value of a lowercase hex string: Python `int(h, 16)`
(restricted to the lowercase hex digits the hashers emit). -/
def hexVal (s : List Char) : Nat :=
  s.foldl (fun a c => a * 16 + (if 97 ≤ c.toNat then c.toNat - 87 else c.toNat - 48)) 0

/-! ### The external hash primitive

`hashlib.blake2b(msg, digest_size=k).hexdigest()` is a library primitive, not
code of this repository.  The model below keeps exactly the properties the
source relies on: it is a pure deterministic function of the message bytes and
of the digest size, and it renders exactly `2 * digestSize` lowercase hex
characters.  The concrete mixing arithmetic is a placeholder for the real
compression function. -/

def blake2bHex (digestSize : Nat) (msg : List Char) : List Char :=
  let seed := msg.foldl
    (fun a c => (a * 1099511628211 + c.toNat + 1) % (2 ^ 64))
    (14695981039346656037 + digestSize)
  (List.range (2 * digestSize)).map
    (fun i => hexChar (((seed + (i + 1) * 2654435761) / 16 ^ (i % 8)) % 16))

/-! ### Postings data model

A row of the Arrow `hash_table` handed to the searchers, and of the
`bin_k_hash_index` tables: `(hash_id, text_id, positions)`. -/

structure PostRow where
  hash_id : Nat
  text_id : Nat
  positions : List Nat
  deriving Repr, DecidableEq

/-- Rows of text `d`: `WHERE text_id = d`. -/
def textRows (tbl : List PostRow) (d : Nat) : List PostRow :=
  tbl.filter (fun r => decide (r.text_id = d))

/-- The distinct text ids appearing in the table (GROUP BY text_id). -/
def textIds (tbl : List PostRow) : List Nat := (tbl.map (fun r => r.text_id)).dedup

/-- UNNEST of the positions arrays of text `d`: rows `(hash_id, position)`. -/
def flatPairs (tbl : List PostRow) (d : Nat) : List (Nat × Nat) :=
  (textRows tbl d).flatMap (fun r => r.positions.map (fun p => (r.hash_id, p)))

/-- A postings table is well formed when, for each of its texts, no token
position is claimed twice (each position of a document holds one token, so the
flattened rows of a text have pairwise distinct positions).  Every table
produced by the index writer and the index reader satisfies this. -/
def WFTable (tbl : List PostRow) : Prop :=
  ∀ d ∈ textIds tbl, ((flatPairs tbl d).map (fun e => e.2)).Nodup

instance : DecidablePred WFTable := fun tbl => by
  unfold WFTable
  infer_instance

/-! ### Sorting rows by position (ORDER BY position ASC) -/

def insertPos (x : Nat × Nat) : List (Nat × Nat) → List (Nat × Nat)
  | [] => [x]
  | y :: ys => if x.2 ≤ y.2 then x :: y :: ys else y :: insertPos x ys

def sortByPos : List (Nat × Nat) → List (Nat × Nat)
  | [] => []
  | x :: xs => insertPos x (sortByPos xs)

/-- The flattened rows of text `d` in position order. -/
def sortedPairs (tbl : List PostRow) (d : Nat) : List (Nat × Nat) :=
  sortByPos (flatPairs tbl d)

/-! ### Sequence grouping of twiga_exact_phrase_searcher (twiga_core_search.py)

Step 3 of the searcher computes
`ROW_NUMBER() OVER (PARTITION BY text_id ORDER BY position ASC) - position`
and step 4 groups rows by that value (`GROUP BY text_id, sequence_id`),
aggregating `hash_id` in position order. -/

/-- Attach `k - position` to each row, `k` being the 1-based ROW_NUMBER of the
first row; recursion increments the row number. -/
def keyed (k : Int) : List (Nat × Nat) → List (Int × (Nat × Nat))
  | [] => []
  | x :: xs => (k - (x.2 : Int), x) :: keyed (k + 1) xs

/-- SQL GROUP BY on the key: one group per distinct key value, each group
holding its rows in their original (position) order. -/
def groupKeys (l : List (Int × (Nat × Nat))) : List (List (Nat × Nat)) :=
  ((l.map (fun e => e.1)).dedup).map
    (fun k => (l.filter (fun e => decide (e.1 = k))).map (fun e => e.2))

/-- The islands of step 3/4: rows grouped by `ROW_NUMBER() - position`. -/
def seqGroups (ps : List (Nat × Nat)) : List (List (Nat × Nat)) :=
  groupKeys (keyed 1 ps)

/-! ### Maximal runs of consecutive positions (specification side)

`chunkBy R` splits a list into maximal blocks of adjacently `R`-related
elements; with the relation "next position is this position plus one" the
blocks are exactly the maximal runs of consecutive positions. -/

def chunkCons {α : Type} (R : α → α → Bool) (x : α) : List (List α) → List (List α)
  | [] => [[x]]
  | [] :: gs => [x] :: gs
  | (y :: g) :: gs => if R x y then (x :: y :: g) :: gs else [x] :: (y :: g) :: gs

def chunkBy {α : Type} (R : α → α → Bool) : List α → List (List α)
  | [] => []
  | x :: xs => chunkCons R x (chunkBy R xs)

def consecPos (a b : Nat × Nat) : Bool := decide (b.2 = a.2 + 1)

def keyEq (a b : Int × (Nat × Nat)) : Bool := decide (a.1 = b.1)

/-- Maximal runs of consecutive positions of a position-sorted row list. -/
def posRuns (ps : List (Nat × Nat)) : List (List (Nat × Nat)) := chunkBy consecPos ps

/-! ### Strings of the exact-phrase searchers -/

/-- STRING_AGG(hash_id, '' ORDER BY position):
    concatenated decimal renderings. -/
def concatIds (ids : List Nat) : List Char := (ids.map natChars).flatten

/-- Number of distinct values: COUNT(DISTINCT ...) / len(set(...)). -/
def distinctCount (l : List Nat) : Nat := l.dedup.length

/-- Step 1 of both exact-phrase searchers: the text carries as many distinct
hash_ids as the query has distinct hash_ids
(HAVING COUNT(DISTINCT hash_id) = len(set(hash_id_list))). -/
def qualifies (tbl : List PostRow) (Q : List Nat) (d : Nat) : Bool :=
  decide (distinctCount ((textRows tbl d).map (fun r => r.hash_id)) = distinctCount Q)

/-- sequences_by_text of twiga_exact_phrase_searcher for one text: the islands
kept by HAVING COUNT(hash_id) = L, rendered with STRING_AGG(hash_id, ''). -/
def seqStringsA (ps : List (Nat × Nat)) (L : Nat) : List (List Char) :=
  ((seqGroups ps).filter (fun g => decide (g.length = L))).map
    (fun g => concatIds (g.map (fun e => e.1)))

/-- COUNT(sbt.sequence) of the islands searcher for one text: islands of
length L whose aggregated string equals the query string. -/
def phraseCountA (tbl : List PostRow) (Q : List Nat) (d : Nat) : Nat :=
  ((seqStringsA (sortedPairs tbl d) Q.length).filter
    (fun s => decide (s = concatIds Q))).length

/-! ### Bordered islands of twiga_multiple_words_searcher (twiga_core.py) -/

/-- The `borders` CTE: each row's hash_id rendered as VARCHAR, with '##'
appended when LEAD(position) - position > 1 (NULL lead compares false). -/
def borderStrs : List (Nat × Nat) → List (List Char)
  | [] => []
  | [x] => [natChars x.1]
  | x :: y :: rest =>
    (if x.2 + 1 < y.2 then natChars x.1 ++ ['#', '#'] else natChars x.1) ::
      borderStrs (y :: rest)

/-- STRING_AGG(hash_id_string, '#' ORDER BY position). -/
def joinHash : List (List Char) → List Char
  | [] => []
  | [s] => s
  | s :: t :: rest => s ++ '#' :: joinHash (t :: rest)

/-- The `texts` CTE string of one text, built from its position-sorted rows. -/
def textStrB (ps : List (Nat × Nat)) : List Char := joinHash (borderStrs ps)

/-- '#'.join(map(str, hash_id_list)): the request_sequence_string. -/
def joinIds (ids : List Nat) : List Char := joinHash (ids.map natChars)

def consHead (c : Char) : List (List Char) → List (List Char)
  | [] => [[c]]
  | p :: ps => (c :: p) :: ps

/-- STRING_SPLIT(text, '###'): left-to-right non-overlapping split. -/
def splitSeq : List Char → List (List Char)
  | [] => [[]]
  | [c] => [[c]]
  | [c, d] => [[c, d]]
  | c :: d :: e :: rest =>
    if c = '#' ∧ d = '#' ∧ e = '#' then [] :: splitSeq rest
    else consHead c (splitSeq (d :: e :: rest))

/-- `lstarts q s` : the string s begins with q (SQL s LIKE 'q%'). -/
def lstarts : List Char → List Char → Bool
  | [], _ => true
  | _ :: _, [] => false
  | a :: as, b :: bs => decide (a = b) && lstarts as bs

/-- `lends q s` : the string s ends with q (SQL s LIKE '%q'). -/
def lends (q s : List Char) : Bool := lstarts q.reverse s.reverse

/-- The WHERE condition of twiga_multiple_words_searcher:
s = q OR s LIKE '%q' OR s LIKE 'q%'. -/
def condB (q s : List Char) : Bool := decide (s = q) || lends q s || lstarts q s

/-- COUNT(s.sequence) of the bordered-islands searcher for one text.  The
positions_by_text CTE deduplicates the flattened rows (GROUP BY text_id,
hash_id, position) before the window runs in position order. -/
def phraseCountB (tbl : List PostRow) (Q : List Nat) (d : Nat) : Nat :=
  ((splitSeq (textStrB (sortByPos ((flatPairs tbl d).dedup)))).filter
    (fun s => condB (joinIds Q) s)).length

/-! ### Result rows and ranking -/

/-- A searcher output row.  `freq` is ROUND(matching_words / words_total, 5)
in fixed point: the value multiplied by 100000; NULL (unknown words_total) is
none. -/
structure ResultRow where
  text_id : Nat
  matching_words : Nat
  words_total : Option Nat
  freq : Option Nat
  deriving Repr, DecidableEq

/-- FIRST(wc.words_total) over the LEFT JOIN with word_counts. -/
def wcLookup (wc : List (Nat × Nat)) (d : Nat) : Option Nat :=
  (wc.find? (fun e => decide (e.1 = d))).map (fun e => e.2)

/-- ROUND(mw / wt, 5) scaled by 100000 (round half away from zero on
nonnegative values); NULL words_total propagates to NULL. -/
def roundedTF (mw : Nat) : Option Nat → Option Nat
  | none => none
  | some wt => if wt = 0 then none else some ((2 * (mw * 100000) + wt) / (2 * wt))

def mkRow (wc : List (Nat × Nat)) (d mw : Nat) : ResultRow :=
  { text_id := d, matching_words := mw, words_total := wcLookup wc d,
    freq := roundedTF mw (wcLookup wc d) }

/-- Sort key of ORDER BY matching_words_frequency DESC: NULL sorts last. -/
def rankOf : Option Nat → Int
  | none => -1
  | some v => (v : Int)

def insertRow (x : ResultRow) : List ResultRow → List ResultRow
  | [] => [x]
  | y :: ys => if rankOf y.freq ≤ rankOf x.freq then x :: y :: ys else y :: insertRow x ys

def sortByFreq : List ResultRow → List ResultRow
  | [] => []
  | x :: xs => insertRow x (sortByFreq xs)

/-- LEN(FIRST(ht.positions)) of the single-word searchers for text d. -/
def firstPositions (tbl : List PostRow) (d : Nat) : Nat :=
  match (textRows tbl d).head? with
  | some r => r.positions.length
  | none => 0

/-- The grouped rows of the single-word search query, shared verbatim by
twiga_core_search.twiga_single_word_searcher and
twiga_core.twiga_single_word_searcher (their SQL bodies are identical up to
the LIMIT clause). -/
def singleRows (tbl : List PostRow) (wc : List (Nat × Nat)) : List ResultRow :=
  (textIds tbl).map (fun d => mkRow wc d (firstPositions tbl d))

/-! ### The searchers of twiga_core_search.py

These build a LIMIT clause only when results_number > 0 ('LIMIT 0 means
unlimited'); an empty result table becomes None. -/

namespace TwigaCoreSearch

def twiga_single_word_searcher (tbl : List PostRow) (wc : List (Nat × Nat))
    (results_number : Nat) : Option (List ResultRow) :=
  let rows := sortByFreq (singleRows tbl wc)
  let rows := if 0 < results_number then rows.take results_number else rows
  if rows.isEmpty then none else some rows

/-- The qualifying rows of twiga_exact_phrase_searcher before ORDER BY/LIMIT:
one row per text that passes step 1 and whose island count is positive. -/
def exactPhraseRows (tbl : List PostRow) (Q : List Nat) (wc : List (Nat × Nat)) :
    List ResultRow :=
  ((textIds tbl).filter
      (fun d => qualifies tbl Q d && decide (0 < phraseCountA tbl Q d))).map
    (fun d => mkRow wc d (phraseCountA tbl Q d * Q.length))

def twiga_exact_phrase_searcher (tbl : List PostRow) (Q : List Nat)
    (wc : List (Nat × Nat)) (results_number : Nat) : Option (List ResultRow) :=
  let rows := sortByFreq (exactPhraseRows tbl Q wc)
  let rows := if 0 < results_number then rows.take results_number else rows
  if rows.isEmpty then none else some rows

end TwigaCoreSearch

/-! ### The searchers of twiga_core.py

These always emit `LIMIT results_number` (so results_number = 0 keeps zero
rows); an empty result table becomes None. -/

namespace TwigaCore

def twiga_single_word_searcher (tbl : List PostRow) (wc : List (Nat × Nat))
    (results_number : Nat) : Option (List ResultRow) :=
  let rows := (sortByFreq (singleRows tbl wc)).take results_number
  if rows.isEmpty then none else some rows

/-- The qualifying rows of twiga_multiple_words_searcher before
ORDER BY/LIMIT. -/
def multiWordsRows (tbl : List PostRow) (Q : List Nat) (wc : List (Nat × Nat)) :
    List ResultRow :=
  ((textIds tbl).filter
      (fun d => qualifies tbl Q d && decide (0 < phraseCountB tbl Q d))).map
    (fun d => mkRow wc d (phraseCountB tbl Q d * Q.length))

def twiga_multiple_words_searcher (tbl : List PostRow) (Q : List Nat)
    (wc : List (Nat × Nat)) (results_number : Nat) : Option (List ResultRow) :=
  let rows := (sortByFreq (multiWordsRows tbl Q wc)).take results_number
  if rows.isEmpty then none else some rows

end TwigaCore

/-! ### The index readers

The hash of a token is carried around as its hex digest string; its numeric
value routes it to a bin.  For the reader model a hash is represented by its
numeric value (`int(hash, 16)`), which determines both identity and routing. -/

/-- Shard router: `(int(hash, 16) % bins) + 1`. -/
def binOf (bins h : Nat) : Nat := h % bins + 1

/-- The index database as seen by twiga_core.twiga_index_reader:
per bin a `bin_k_hash_dict` table of `(hash, hash_id)` rows and a
`bin_k_hash_index` table of postings rows. -/
structure IndexDB where
  dict : Nat → List (Nat × Nat)
  hidx : Nat → List PostRow

/-- The index database as seen by twiga_core_search.twiga_index_reader, which
queries denormalized per-bin tables `bin_k(hash, text_id, positions)`. -/
structure SearchBinRow where
  hash : Nat
  text_id : Nat
  positions : List Nat
  deriving Repr, DecidableEq

structure SearchIndexDB where
  bins : Nat → List SearchBinRow

/-- Sequential Option-valued map: the list comprehension
`[mapping_dict[item] for item in request_hash_list]` inside try/except —
the first missing key aborts the whole computation. -/
def optMap (f : Nat → Option Nat) : List Nat → Option (List Nat)
  | [] => some []
  | x :: xs =>
    match f x, optMap f xs with
    | some y, some ys => some (y :: ys)
    | _, _ => none

/-- Python dict(zip(hashes, ids)): on duplicate keys the last entry wins. -/
def lookupLast (m : List (Nat × Nat)) (h : Nat) : Option Nat :=
  (m.reverse.find? (fun e => decide (e.1 = h))).map (fun e => e.2)

namespace TwigaCore

/-- The per-bin hash list of bin_dict: the distinct request hashes routed to
bin `b`. -/
def readerBinList (bins_total : Nat) (request_hash_list : List Nat) (b : Nat) :
    List Nat :=
  request_hash_list.dedup.filter (fun h => decide (binOf bins_total h = b))

/-- The result of the mapping_query of twiga_core.twiga_index_reader: per hit
bin, SELECT hash, hash_id FROM bin_b_hash_dict WHERE hash IN (bin list); a
plain UNION between the per-bin subqueries (emitted only when more than one
bin is hit) deduplicates rows. -/
def readerMapping (db : IndexDB) (bins_total : Nat)
    (request_hash_list : List Nat) : List (Nat × Nat) :=
  let binsUsed := (request_hash_list.dedup.map (binOf bins_total)).dedup
  let rows := binsUsed.flatMap
    (fun b => (db.dict b).filter
      (fun e => (readerBinList bins_total request_hash_list b).contains e.1))
  if 1 < binsUsed.length then rows.dedup else rows

/-- The result of the hash_query of twiga_core.twiga_index_reader: per hit
bin, the hash_index rows joined to the mapping table on hash_id, restricted
to the bin's hash list; UNION deduplicates when more than one bin is hit. -/
def readerRows (db : IndexDB) (bins_total : Nat)
    (request_hash_list : List Nat) : List PostRow :=
  let binsUsed := (request_hash_list.dedup.map (binOf bins_total)).dedup
  let mappingRows := readerMapping db bins_total request_hash_list
  let rows := binsUsed.flatMap (fun b =>
    (db.hidx b).flatMap (fun r =>
      (mappingRows.filter
        (fun e => decide (e.2 = r.hash_id) &&
          (readerBinList bins_total request_hash_list b).contains e.1)).map
        (fun _ => r)))
  if 1 < binsUsed.length then rows.dedup else rows

/-- twiga_core.twiga_index_reader: resolve the request hashes against the
per-bin dictionaries.  Any request hash missing from the mapping raises
KeyError in the hash_id list comprehension and yields (None, None). -/
def twiga_index_reader (db : IndexDB) (bins_total : Nat)
    (request_hash_list : List Nat) : Option (List Nat × List PostRow) :=
  if request_hash_list = [] then none else
  match optMap (fun h => lookupLast (readerMapping db bins_total request_hash_list) h)
      request_hash_list with
  | none => none
  | some ids => some (ids, readerRows db bins_total request_hash_list)

end TwigaCore

namespace TwigaCoreSearch

/-- twiga_core_search.twiga_index_reader: the mapping_dict is synthetic
(`{hash: index for index, hash in enumerate(hash_set)}`), built without
consulting the database, so the hash_id list is always produced; hashes absent
from their bin table simply contribute no rows.  A plain UNION between the
per-hash subqueries (emitted only when the request has more than one distinct
hash) deduplicates rows. -/
def twiga_index_reader (db : SearchIndexDB) (index_bins : Nat)
    (request_hash_list : List Nat) : Option (List Nat × List PostRow) :=
  if request_hash_list = [] then none else
  let hash_set := request_hash_list.dedup
  let mapIdx := fun h => hash_set.indexOf h
  let binsUsed := (hash_set.map (binOf index_bins)).dedup
  let binList := fun b => hash_set.filter (fun h => decide (binOf index_bins h = b))
  let rows0 := binsUsed.flatMap (fun b =>
    (binList b).flatMap (fun h =>
      ((db.bins b).filter (fun r => decide (r.hash = h))).map
        (fun r => PostRow.mk (mapIdx h) r.text_id r.positions)))
  let rows := if 1 < hash_set.length then rows0.dedup else rows0
  some (request_hash_list.map mapIdx, rows)

end TwigaCoreSearch

/-! ### The hashers -/

namespace TwigaCoreSearch

/-- twiga_core_search.twiga_request_hasher: hash every pre-tokenized word of
the normalized request with BLAKE2b digest_size=16.  No stopword filter. -/
def twiga_request_hasher (pre_tokenized : List String) : List (List Char) :=
  pre_tokenized.map (fun w => blake2bHex 16 w.data)

end TwigaCoreSearch

/-! ### The batch indexer of twiga_core_index.py -/

/-- A record appended per word occurrence by twiga_index_hasher. -/
structure HashedWordRecord where
  hash : List Char
  text_id : Nat
  positions : List Nat
  deriving Repr, DecidableEq

namespace TwigaCoreIndex

/-- The word hash of the index side: BLAKE2b digest_size=32 (64 hex chars). -/
def hashWord (w : String) : List Char := blake2bHex 32 w.data

/-- Appending a position to the entry of `h` in the insertion-ordered
positions dict, creating the entry if absent. -/
def upsertPos (h : List Char) (p : Nat) :
    List (List Char × List Nat) → List (List Char × List Nat)
  | [] => [(h, [p])]
  | (k, v) :: rest =>
    if k = h then (k, v ++ [p]) :: rest else (k, v) :: upsertPos h p rest

/-- The positions dict of one text:
for position, hashed_word in enumerate(text_word_hash_list). -/
def buildPositions (hl : List (List Char)) : List (List Char × List Nat) :=
  hl.enum.foldl (fun m e => upsertPos e.2 e.1 m) []

def posLookup (m : List (List Char × List Nat)) (h : List Char) : List Nat :=
  match m.find? (fun e => e.1 = h) with
  | some e => e.2
  | none => []

/-- The `for hashed_word in text_word_hash_list` loop of twiga_index_hasher:
ONE record PER OCCURRENCE, each carrying the full positions list of its hash,
tagged with its bin number. -/
def hasherTextRecords (index_bins : Nat) (tid : Nat) (ws : List String) :
    List (Nat × HashedWordRecord) :=
  let hl := ws.map hashWord
  let pd := buildPositions hl
  hl.map (fun h => (hexVal h % index_bins + 1, ⟨h, tid, posLookup pd h⟩))

/-- twiga_core_index.twiga_index_hasher on a (text_ids, word_lists) batch:
returns (texts_total, words_total, bin-tagged hash records, word_counts).
The Python version groups the records in a dict keyed by bin; the bin tag
carries the same information. -/
def twiga_index_hasher (text_id_list : List Nat) (text_words_list : List (List String))
    (index_bins : Nat) :
    Nat × Nat × List (Nat × HashedWordRecord) × List (Nat × Nat) :=
  let texts := text_id_list.zip text_words_list
  ( texts.length,
    (texts.map (fun t => t.2.length)).sum,
    (texts.map (fun t => hasherTextRecords index_bins t.1 t.2)).flatten,
    texts.map (fun t => (t.1, t.2.length)) )

/-- The stopword filter applied by twiga_index_writer while building
text_words_list. -/
def filteredWords (stopword_set : List String) (ws : List String) : List String :=
  ws.filter (fun w => !stopword_set.contains w)

/-- The sub-batching loop of twiga_index_writer.  State: the accumulated
sub-batches, the current sub-batch (its parallel id/word lists represented as
a list of pairs) and the current word count.  On overflow the current
sub-batch is flushed — even when it is still empty — and the overflowing
document opens the next sub-batch; the final sub-batch is always appended
(a two-element Python list is always truthy). -/
def hasherBatchesAux (maxW : Nat) :
    List (Nat × List String) → List (Nat × List String) → Nat →
    List (List (Nat × List String))
  | [], cur, _ => [cur]
  | (tid, ws) :: rest, cur, cnt =>
    if maxW < cnt + ws.length then
      cur :: hasherBatchesAux maxW rest [(tid, ws)] ws.length
    else
      hasherBatchesAux maxW rest (cur ++ [(tid, ws)]) (cnt + ws.length)

def hasherBatches (maxW : Nat) (docs : List (Nat × List String)) :
    List (List (Nat × List String)) :=
  hasherBatchesAux maxW docs [] 0

/-- Combined word count of a sub-batch. -/
def batchWords (b : List (Nat × List String)) : Nat :=
  (b.map (fun t => t.2.length)).sum

/-- The word_counts rows twiga_index_writer inserts for a batch: stopword
filtering, sub-batching, per-sub-batch hashing (in sub-batch order — the
process pool keeps argument order), concatenation. -/
def twiga_index_writer_word_counts (stopword_set : List String)
    (text_id_list : List Nat) (text_words_list : List (List String))
    (hasher_batch_maximum index_bins : Nat) : List (Nat × Nat) :=
  let filtered := text_words_list.map (filteredWords stopword_set)
  let batches := hasherBatches hasher_batch_maximum (text_id_list.zip filtered)
  (batches.map (fun b =>
    (twiga_index_hasher (b.map (fun t => t.1)) (b.map (fun t => t.2))
      index_bins).2.2.2)).flatten

/-- Sum of the lengths of the positions lists over the hash records of
text `d` — the quantity invariant 2 of the data model constrains. -/
def sumPositions (recs : List (Nat × HashedWordRecord)) (d : Nat) : Nat :=
  ((recs.filter (fun e => decide (e.2.text_id = d))).map
    (fun e => e.2.positions.length)).sum

end TwigaCoreIndex

/-! ### Phrase-occurrence specification predicate -/

/-- The spec's phrase semantics: the phrase occurs in text `d` at start
position `p` iff for every `k ∈ [0, L)` the flattened postings of `d` contain
the row `(Q[k], p + k)`. -/
def phraseOccursAt (tbl : List PostRow) (Q : List Nat) (d p : Nat) : Prop :=
  ∀ k, (h : k < Q.length) → (Q.get ⟨k, h⟩, p + k) ∈ flatPairs tbl d

instance (tbl : List PostRow) (Q : List Nat) (d p : Nat) :
    Decidable (phraseOccursAt tbl Q d p) :=
  Nat.decidableBallLT Q.length _

/-! ### Concrete inputs for the counterexamples and witnesses -/

/-- Postings of a text 1 with tokens w0 w1 w0 (hash_id 0 at positions 0 and 2,
hash_id 1 at position 1) — the phrase (0, 1) occurs at start position 0,
embedded in a longer island. -/
def tblBCB : List PostRow := [⟨0, 1, [0, 2]⟩, ⟨1, 1, [1]⟩]

def wcBCB : List (Nat × Nat) := [(1, 3)]

/-- Postings of the spec scenario d5 = "ab ab ab": one hash (id 0) at
positions 0, 1, 2 of text 5. -/
def tblABAB : List PostRow := [⟨0, 5, [0, 1, 2]⟩]

def wcABAB : List (Nat × Nat) := [(5, 3)]

/-- A one-row table: text 1 contains the queried word once. -/
def tblOne : List PostRow := [⟨0, 1, [0]⟩]

def wcOne : List (Nat × Nat) := [(1, 1)]

/-- Text 1 contains hash_id 0 at position 0 and hash_id 1 at position 1:
a clean occurrence of the phrase (0, 1). -/
def tblPair : List PostRow := [⟨0, 1, [0]⟩, ⟨1, 1, [1]⟩]

def wcPair : List (Nat × Nat) := [(1, 2)]

/-- An entirely empty core index database. -/
def dbEmpty : IndexDB := ⟨fun _ => [], fun _ => []⟩

/-- An entirely empty search-module index database. -/
def sdbEmpty : SearchIndexDB := ⟨fun _ => []⟩

/-! ## Lemmas about the embedding -/

/-! ### Insertion sort by position -/

theorem insertPos_perm (x : Nat × Nat) : ∀ l, List.Perm (insertPos x l) (x :: l)
  | [] => List.Perm.refl _
  | y :: ys => by
    unfold insertPos
    split
    · exact List.Perm.refl _
    · exact ((insertPos_perm x ys).cons y).trans (List.Perm.swap x y ys)

theorem sortByPos_perm : ∀ l, List.Perm (sortByPos l) l
  | [] => List.Perm.refl _
  | x :: xs => (insertPos_perm x (sortByPos xs)).trans ((sortByPos_perm xs).cons x)

theorem insertPos_head? (x : Nat × Nat) (l : List (Nat × Nat)) :
    (insertPos x l).head? = some x ∨ (insertPos x l).head? = l.head? := by
  cases l with
  | nil => exact Or.inl rfl
  | cons y ys =>
    unfold insertPos
    split
    · exact Or.inl rfl
    · exact Or.inr rfl

theorem insertPos_sorted {x : Nat × Nat} :
    ∀ {l}, List.Chain' (fun a b => a.2 ≤ b.2) l →
      List.Chain' (fun a b => a.2 ≤ b.2) (insertPos x l)
  | [], _ => List.chain'_singleton x
  | y :: ys, h => by
    unfold insertPos
    split
    · exact List.chain'_cons.mpr ⟨by assumption, h⟩
    · rcases List.chain'_cons'.mp h with ⟨hy, hys⟩
      refine List.chain'_cons'.mpr ⟨?_, insertPos_sorted hys⟩
      intro z hz
      rcases insertPos_head? x ys with he | he
      · rw [he] at hz
        cases hz
        omega
      · rw [he] at hz
        exact hy z hz

theorem sortByPos_sorted : ∀ l, List.Chain' (fun a b => a.2 ≤ b.2) (sortByPos l)
  | [] => List.chain'_nil
  | _ :: xs => insertPos_sorted (sortByPos_sorted xs)

/-- A position-sorted list with pairwise distinct positions is strictly
increasing in position. -/
theorem chain_lt_of_le_nodup :
    ∀ {l : List (Nat × Nat)}, List.Chain' (fun a b => a.2 ≤ b.2) l →
      (l.map (fun e => e.2)).Nodup → List.Chain' (fun a b => a.2 < b.2) l
  | [], _, _ => List.chain'_nil
  | [_], _, _ => List.chain'_singleton _
  | x :: y :: l, hle, hnd => by
    rcases List.chain'_cons.mp hle with ⟨hxy, hrest⟩
    rw [List.map_cons, List.nodup_cons] at hnd
    rcases hnd with ⟨hx, hnd'⟩
    refine List.chain'_cons.mpr ⟨?_, chain_lt_of_le_nodup hrest hnd'⟩
    have hne : x.2 ≠ y.2 := by
      intro he
      exact hx (by rw [he]; exact List.mem_map_of_mem _ (List.mem_cons_self y l))
    omega

theorem sortedPairs_strict (tbl : List PostRow) (d : Nat)
    (h : ((flatPairs tbl d).map (fun e => e.2)).Nodup) :
    List.Chain' (fun a b => a.2 < b.2) (sortedPairs tbl d) := by
  have hperm : List.Perm ((sortedPairs tbl d).map (fun e => e.2))
      ((flatPairs tbl d).map (fun e => e.2)) :=
    (sortByPos_perm (flatPairs tbl d)).map _
  exact chain_lt_of_le_nodup (sortByPos_sorted _) (hperm.nodup_iff.mpr h)

/-! ### Chunks of adjacently related elements -/

theorem chunkCons_nil {α : Type} (R : α → α → Bool) (x : α) :
    chunkCons R x [] = [[x]] := rfl

theorem chunkCons_nilHead {α : Type} (R : α → α → Bool) (x : α) (gs : List (List α)) :
    chunkCons R x ([] :: gs) = [x] :: gs := rfl

theorem chunkCons_cons {α : Type} (R : α → α → Bool) (x y : α) (g : List α)
    (gs : List (List α)) :
    chunkCons R x ((y :: g) :: gs) =
      if R x y then (x :: y :: g) :: gs else [x] :: (y :: g) :: gs := rfl

theorem chunkCons_shape {α : Type} (R : α → α → Bool) (x : α) (l : List (List α)) :
    ∃ g gs, chunkCons R x l = (x :: g) :: gs := by
  rcases l with _ | ⟨g1, gs⟩
  · exact ⟨[], [], rfl⟩
  · rcases g1 with _ | ⟨y, g⟩
    · exact ⟨[], gs, rfl⟩
    · rw [chunkCons_cons]
      by_cases h : R x y = true
      · rw [if_pos h]
        exact ⟨y :: g, gs, rfl⟩
      · rw [if_neg h]
        exact ⟨[], (y :: g) :: gs, rfl⟩

theorem chunkCons_flatten {α : Type} (R : α → α → Bool) (x : α) (l : List (List α)) :
    (chunkCons R x l).flatten = x :: l.flatten := by
  rcases l with _ | ⟨g1, gs⟩
  · rfl
  · rcases g1 with _ | ⟨y, g⟩
    · simp [chunkCons_nilHead]
    · rw [chunkCons_cons]
      by_cases h : R x y = true
      · rw [if_pos h]
        simp
      · rw [if_neg h]
        simp

theorem chunkBy_flatten {α : Type} (R : α → α → Bool) :
    ∀ l, (chunkBy R l).flatten = l
  | [] => rfl
  | x :: xs => by
    show (chunkCons R x (chunkBy R xs)).flatten = x :: xs
    rw [chunkCons_flatten, chunkBy_flatten R xs]

theorem nil_not_mem_chunkCons {α : Type} (R : α → α → Bool) (x : α)
    {l : List (List α)} (h : [] ∉ l) : [] ∉ chunkCons R x l := by
  rcases l with _ | ⟨g1, gs⟩
  · simp [chunkCons_nil]
  · rcases g1 with _ | ⟨y, g⟩
    · exact absurd (List.mem_cons_self _ _) h
    · rw [chunkCons_cons]
      have hgs : [] ∉ gs := fun hc => h (List.mem_cons_of_mem _ hc)
      by_cases hr : R x y = true
      · rw [if_pos hr]
        simp only [List.mem_cons]
        rintro (he | hm)
        · cases he
        · exact hgs hm
      · rw [if_neg hr]
        simp only [List.mem_cons]
        rintro (he | he2 | hm)
        · cases he
        · cases he2
        · exact hgs hm

theorem nil_not_mem_chunkBy {α : Type} (R : α → α → Bool) :
    ∀ l, [] ∉ chunkBy R l
  | [] => by
    intro hc
    cases hc
  | x :: xs => nil_not_mem_chunkCons R x (nil_not_mem_chunkBy R xs)

theorem mem_of_mem_chunkBy {α : Type} {R : α → α → Bool} {l : List α}
    {g : List α} {a : α} (hg : g ∈ chunkBy R l) (ha : a ∈ g) : a ∈ l := by
  have hm : a ∈ (chunkBy R l).flatten := List.mem_flatten.mpr ⟨g, hg, ha⟩
  rwa [chunkBy_flatten] at hm

/-! ### The ROW_NUMBER() - position grouping produces the consecutive runs

First: grouping the keyed rows by adjacent key equality is the same as
grouping the rows by adjacent consecutiveness of positions (the row number
grows by one per row, so keys agree exactly when positions step by one). -/

theorem keyed_chunks : ∀ (ps : List (Nat × Nat)) (k : Int),
    (chunkBy keyEq (keyed k ps)).map (List.map (fun e => e.2)) = chunkBy consecPos ps
  | [], _ => rfl
  | [_], _ => rfl
  | x :: y :: t, k => by
    have IH := keyed_chunks (y :: t) (k + 1)
    obtain ⟨G, GS, hG⟩ :=
      chunkCons_shape keyEq ((k + 1) - (y.2 : Int), y) (chunkBy keyEq (keyed (k + 1 + 1) t))
    obtain ⟨g, gs, hg⟩ := chunkCons_shape consecPos y (chunkBy consecPos t)
    have hky : chunkBy keyEq (keyed (k + 1) (y :: t)) =
        (((k + 1) - (y.2 : Int), y) :: G) :: GS := hG
    have hcy : chunkBy consecPos (y :: t) = (y :: g) :: gs := hg
    rw [hky, hcy] at IH
    simp only [List.map_cons, List.cons.injEq] at IH
    obtain ⟨⟨_, hGg⟩, hGSgs⟩ := IH
    show (chunkCons keyEq (k - (x.2 : Int), x)
        (chunkBy keyEq (keyed (k + 1) (y :: t)))).map (List.map (fun e => e.2)) =
      chunkCons consecPos x (chunkBy consecPos (y :: t))
    rw [hky, hcy, chunkCons_cons, chunkCons_cons]
    have hiff : (keyEq (k - (x.2 : Int), x) ((k + 1) - (y.2 : Int), y) = true) ↔
        (consecPos x y = true) := by
      simp only [keyEq, consecPos, decide_eq_true_eq]
      omega
    by_cases hc : consecPos x y = true
    · rw [if_pos (hiff.mpr hc), if_pos hc]
      simp [List.map_cons, hGg, hGSgs]
    · rw [if_neg (fun h => hc (hiff.mp h)), if_neg hc]
      simp [List.map_cons, hGg, hGSgs]

/-! ### GROUP BY on non-increasing keys is chunking

The keys `ROW_NUMBER() - position` of a strictly position-sorted text are
non-increasing, so the rows of one key value are contiguous and SQL's
GROUP BY produces exactly the chunks of adjacent equal keys. -/

theorem chain_ge_bound :
    ∀ {l : List (Int × (Nat × Nat))} {x : Int × (Nat × Nat)},
      List.Chain' (fun a b => b.1 ≤ a.1) (x :: l) → ∀ y ∈ l, y.1 ≤ x.1
  | [], _, _, y, hy => absurd hy (List.not_mem_nil y)
  | z :: l, x, h, y, hy => by
    rcases List.chain'_cons.mp h with ⟨hzx, hrest⟩
    rcases List.mem_cons.mp hy with rfl | hy'
    · exact hzx
    · exact le_trans (chain_ge_bound hrest y hy') hzx

theorem dropWhile_head_false {α : Type} (p : α → Bool) :
    ∀ (l : List α) {d : α} {D' : List α}, l.dropWhile p = d :: D' → p d = false
  | [], d, D', h => by simp at h
  | a :: l, d, D', h => by
    rw [List.dropWhile_cons] at h
    by_cases hpa : p a = true
    · rw [if_pos hpa] at h
      exact dropWhile_head_false p l h
    · rw [if_neg hpa] at h
      cases h
      exact Bool.eq_false_iff.mpr hpa

theorem chunkBy_keyEq_span :
    ∀ (l : List (Int × (Nat × Nat))) (e : Int × (Nat × Nat)),
      chunkBy keyEq (e :: l) =
        (e :: l.takeWhile (fun f => keyEq e f)) ::
          chunkBy keyEq (l.dropWhile (fun f => keyEq e f))
  | [], e => rfl
  | f :: l, e => by
    by_cases hef : keyEq e f = true
    · have he1 : e.1 = f.1 := by
        have := hef
        simp only [keyEq, decide_eq_true_eq] at this
        exact this
      have hfun : (fun g => keyEq e g) = (fun g => keyEq f g) := by
        funext g
        simp only [keyEq, he1]
      have IH := chunkBy_keyEq_span l f
      show chunkCons keyEq e (chunkBy keyEq (f :: l)) = _
      rw [IH, chunkCons_cons, if_pos hef,
        List.takeWhile_cons, if_pos hef, List.dropWhile_cons, if_pos hef, hfun]
    · show chunkCons keyEq e (chunkBy keyEq (f :: l)) = _
      obtain ⟨g, gs, hg⟩ := chunkCons_shape keyEq f (chunkBy keyEq l)
      have hfl : chunkBy keyEq (f :: l) = (f :: g) :: gs := hg
      rw [hfl, chunkCons_cons, if_neg hef,
        List.takeWhile_cons, if_neg hef, List.dropWhile_cons, if_neg hef, hfl]

theorem dedup_block :
    ∀ (ks : List Int) {k : Int} {rest : List Int},
      (∀ j ∈ ks, j = k) → k ∉ rest → (k :: (ks ++ rest)).dedup = k :: rest.dedup
  | [], k, rest, _, hrest => by
    rw [List.nil_append, List.dedup_cons_of_not_mem hrest]
  | j :: ks, k, rest, hks, hrest => by
    have hj : j = k := hks j (List.mem_cons_self j ks)
    subst hj
    rw [List.dedup_cons_of_mem (List.mem_append_left rest (List.mem_cons_self j ks)),
      List.cons_append]
    exact dedup_block ks (fun i hi => hks i (List.mem_cons_of_mem j hi)) hrest

theorem groupKeys_eq_chunks :
    ∀ (l : List (Int × (Nat × Nat))),
      List.Chain' (fun a b => b.1 ≤ a.1) l →
      groupKeys l = (chunkBy keyEq l).map (List.map (fun e => e.2))
  | [], _ => rfl
  | e :: l, h => by
    have hTD : l.takeWhile (fun f => keyEq e f) ++ l.dropWhile (fun f => keyEq e f) = l :=
      List.takeWhile_append_dropWhile _ _
    have hTall : ∀ f ∈ l.takeWhile (fun f => keyEq e f), f.1 = e.1 := by
      intro f hf
      have hp := List.mem_takeWhile_imp hf
      simp only [keyEq, decide_eq_true_eq] at hp
      exact hp.symm
    have hbound : ∀ y ∈ l, y.1 ≤ e.1 := chain_ge_bound h
    have hsubD : l.dropWhile (fun f => keyEq e f) <:+ l := List.dropWhile_suffix _
    have hDne : ∀ f ∈ l.dropWhile (fun f => keyEq e f), f.1 ≠ e.1 := by
      intro f hf
      rcases hDeq : l.dropWhile (fun f => keyEq e f) with _ | ⟨d, D'⟩
      · rw [hDeq] at hf
        exact absurd hf (List.not_mem_nil f)
      · rw [hDeq] at hf
        have hd : keyEq e d = false := dropWhile_head_false _ l hDeq
        have hd1 : d.1 ≠ e.1 := by
          simp only [keyEq, decide_eq_false_iff_not] at hd
          exact fun hh => hd hh.symm
        have hdl : d ∈ l := hsubD.subset (by rw [hDeq]; exact List.mem_cons_self d D')
        have hdlt : d.1 < e.1 := lt_of_le_of_ne (hbound d hdl) hd1
        have hchD : List.Chain' (fun a b => b.1 ≤ a.1) (d :: D') := by
          rw [← hDeq]
          exact h.suffix (hsubD.trans (List.suffix_cons e l))
        rcases List.mem_cons.mp hf with rfl | hf'
        · omega
        · have := chain_ge_bound hchD f hf'
          omega
    have hkeys : ((e :: l).map (fun x => x.1)).dedup =
        e.1 :: ((l.dropWhile (fun f => keyEq e f)).map (fun x => x.1)).dedup := by
      have hsplit : (e :: l).map (fun x => x.1) =
          e.1 :: ((l.takeWhile (fun f => keyEq e f)).map (fun x => x.1) ++
            (l.dropWhile (fun f => keyEq e f)).map (fun x => x.1)) := by
        rw [List.map_cons, ← List.map_append, hTD]
      rw [hsplit]
      apply dedup_block
      · intro j hj
        obtain ⟨f, hf, rfl⟩ := List.mem_map.mp hj
        exact hTall f hf
      · intro hmem
        obtain ⟨f, hf, hfe⟩ := List.mem_map.mp hmem
        exact hDne f hf hfe
    have hfilter_e : (e :: l).filter (fun f => decide (f.1 = e.1)) =
        e :: l.takeWhile (fun f => keyEq e f) := by
      rw [List.filter_cons_of_pos (by simp)]
      congr 1
      conv => lhs; rw [← hTD]
      rw [List.filter_append,
        List.filter_eq_self.mpr (fun f hf => by simp [hTall f hf]),
        List.filter_eq_nil_iff.mpr (fun f hf => by simp [hDne f hf]),
        List.append_nil]
    have hfilter_k : ∀ k, k ≠ e.1 →
        (e :: l).filter (fun f => decide (f.1 = k)) =
          (l.dropWhile (fun f => keyEq e f)).filter (fun f => decide (f.1 = k)) := by
      intro k hk
      rw [List.filter_cons_of_neg (by simp; omega)]
      conv => lhs; rw [← hTD]
      rw [List.filter_append,
        List.filter_eq_nil_iff.mpr (fun f hf => by
          have := hTall f hf
          simp only [decide_eq_true_eq]
          omega),
        List.nil_append]
    have hchDfull : List.Chain' (fun a b => b.1 ≤ a.1)
        (l.dropWhile (fun f => keyEq e f)) :=
      h.suffix (hsubD.trans (List.suffix_cons e l))
    have IH := groupKeys_eq_chunks (l.dropWhile (fun f => keyEq e f)) hchDfull
    show groupKeys (e :: l) = _
    unfold groupKeys
    rw [hkeys, List.map_cons, hfilter_e, chunkBy_keyEq_span l e, List.map_cons]
    congr 1
    rw [← IH]
    unfold groupKeys
    refine List.map_congr_left (fun k hk => ?_)
    have hkne : k ≠ e.1 := by
      have hkmem : k ∈ (l.dropWhile (fun f => keyEq e f)).map (fun x => x.1) :=
        List.mem_dedup.mp hk
      obtain ⟨f, hf, rfl⟩ := List.mem_map.mp hkmem
      exact hDne f hf
    rw [hfilter_k k hkne]
termination_by l => l.length
decreasing_by
  simp only [List.length_cons]
  exact Nat.lt_succ_of_le ((List.dropWhile_suffix _).length_le)

theorem keyed_chain :
    ∀ (ps : List (Nat × Nat)) (k : Int),
      List.Chain' (fun a b => a.2 < b.2) ps →
      List.Chain' (fun a b => b.1 ≤ a.1) (keyed k ps)
  | [], _, _ => List.chain'_nil
  | [x], k, _ => List.chain'_singleton _
  | x :: y :: t, k, h => by
    rcases List.chain'_cons.mp h with ⟨hxy, hrest⟩
    have IH := keyed_chain (y :: t) (k + 1) hrest
    show List.Chain' (fun a b => b.1 ≤ a.1)
      ((k - (x.2 : Int), x) :: ((k + 1) - (y.2 : Int), y) :: keyed (k + 1 + 1) t)
    refine List.chain'_cons.mpr ⟨?_, IH⟩
    simp only
    omega

/-- The islands of ROW_NUMBER() - position grouping are exactly the maximal
runs of consecutive positions, for a strictly position-sorted row list. -/
theorem seqGroups_eq_posRuns (ps : List (Nat × Nat))
    (h : List.Chain' (fun a b => a.2 < b.2) ps) : seqGroups ps = posRuns ps := by
  unfold seqGroups posRuns
  rw [groupKeys_eq_chunks (keyed 1 ps) (keyed_chain ps 1 h), keyed_chunks]

/-! ### Decimal renderings contain only digits -/

theorem digitChar_toNat {n : Nat} (h : n < 10) : (digitChar n).toNat = 48 + n := by
  interval_cases n <;> rfl

theorem digitChar_ne_hash {n : Nat} (h : n < 10) : digitChar n ≠ '#' := by
  interval_cases n <;> decide

theorem digitChar_inj {a b : Nat} (ha : a < 10) (hb : b < 10)
    (h : digitChar a = digitChar b) : a = b := by
  have := congrArg Char.toNat h
  rw [digitChar_toNat ha, digitChar_toNat hb] at this
  omega

theorem natCharsGo_zero (fuel : Nat) (acc : List Char) : natCharsGo fuel 0 acc = acc := by
  cases fuel <;> rfl

theorem natCharsGo_digits :
    ∀ (fuel n : Nat) (acc : List Char),
      (∀ c ∈ acc, c ≠ '#') → ∀ c ∈ natCharsGo fuel n acc, c ≠ '#'
  | fuel, 0, acc, hacc => by
    rw [natCharsGo_zero]
    exact hacc
  | 0, _ + 1, acc, hacc => hacc
  | fuel + 1, n + 1, acc, hacc => by
    refine natCharsGo_digits fuel ((n + 1) / 10) _ ?_
    intro c hc
    rcases List.mem_cons.mp hc with rfl | hc'
    · exact digitChar_ne_hash (Nat.mod_lt _ (by omega))
    · exact hacc c hc'

theorem natChars_digits (n : Nat) : ∀ c ∈ natChars n, c ≠ '#' := by
  unfold natChars
  split
  · intro c hc
    rcases List.mem_cons.mp hc with rfl | hc'
    · decide
    · exact absurd hc' (List.not_mem_nil c)
  · exact natCharsGo_digits n n [] (fun c hc => absurd hc (List.not_mem_nil c))

theorem natCharsGo_length :
    ∀ (fuel n : Nat) (acc : List Char), acc.length ≤ (natCharsGo fuel n acc).length
  | fuel, 0, acc => by
    rw [natCharsGo_zero]
  | 0, _ + 1, _ => Nat.le_refl _
  | fuel + 1, n + 1, acc =>
    Nat.le_trans (by simp)
      (natCharsGo_length fuel ((n + 1) / 10) (digitChar ((n + 1) % 10) :: acc))

theorem natChars_ne_nil (n : Nat) : natChars n ≠ [] := by
  unfold natChars
  split
  · exact List.cons_ne_nil _ _
  · rcases n with _ | m
    · simp_all
    · intro hc
      have h1 := natCharsGo_length m ((m + 1) / 10) [digitChar ((m + 1) % 10)]
      have h2 : natCharsGo (m + 1) (m + 1) [] =
          natCharsGo m ((m + 1) / 10) [digitChar ((m + 1) % 10)] := rfl
      rw [h2] at hc
      rw [hc] at h1
      simp at h1

/-- A single decimal digit renders as its digit character. -/
theorem natChars_single {n : Nat} (h : n < 10) : natChars n = [digitChar n] := by
  rcases n with _ | m
  · rfl
  · have h10 : (m + 1) / 10 = 0 := Nat.div_eq_of_lt h
    have hm : (m + 1) % 10 = m + 1 := Nat.mod_eq_of_lt h
    show natCharsGo (m + 1) (m + 1) [] = [digitChar (m + 1)]
    have h2 : natCharsGo (m + 1) (m + 1) [] =
        natCharsGo m ((m + 1) / 10) [digitChar ((m + 1) % 10)] := rfl
    rw [h2, h10, hm, natCharsGo_zero]

/-! ### Splitting the bordered text string at '###' -/

/-- No two adjacent '#' characters. -/
def NoHH (s : List Char) : Prop := List.Chain' (fun a b => ¬(a = '#' ∧ b = '#')) s

theorem consHead_cons (c : Char) (p : List Char) (ps : List (List Char)) :
    consHead c (p :: ps) = (c :: p) :: ps := rfl

theorem splitSeq_cons3 (c d e : Char) (rest : List Char) :
    splitSeq (c :: d :: e :: rest) =
      if c = '#' ∧ d = '#' ∧ e = '#' then [] :: splitSeq rest
      else consHead c (splitSeq (d :: e :: rest)) := rfl

theorem splitSeq_cons_safe (c : Char) (s : List Char)
    (h : ¬(c = '#' ∧ s.take 2 = ['#', '#'])) :
    splitSeq (c :: s) = consHead c (splitSeq s) := by
  match s with
  | [] => rfl
  | [d] => rfl
  | d :: e :: rest =>
    rw [splitSeq_cons3]
    rw [if_neg ?_]
    rintro ⟨hc, hd, he⟩
    exact h ⟨hc, by rw [hd, he]; rfl⟩

theorem splitSeq_ne_nil : ∀ s, splitSeq s ≠ []
  | [] => by simp [splitSeq]
  | [c] => by simp [splitSeq]
  | [c, d] => by simp [splitSeq]
  | c :: d :: e :: rest => by
    rw [splitSeq_cons3]
    split
    · exact List.cons_ne_nil _ _
    · rcases splitSeq (d :: e :: rest) with _ | ⟨p, ps⟩
      · exact List.cons_ne_nil _ _
      · rw [consHead_cons]
        exact List.cons_ne_nil _ _

/-- Heads constraint: if a chain forbids '#' after c, the tail cannot start
with two '#'. -/
theorem take2_safe {c : Char} {l : List Char}
    (h : ∀ y ∈ l.head?, ¬(c = '#' ∧ y = '#')) :
    ¬(c = '#' ∧ l.take 2 = ['#', '#']) := by
  rintro ⟨hc, ht⟩
  cases l with
  | nil => simp at ht
  | cons x l' =>
    have hx : x = '#' := by
      rw [List.take_succ_cons] at ht
      exact (List.cons.injEq _ _ _ _).mp ht |>.1
    exact h x rfl ⟨hc, hx⟩

/-- Splitting at an explicit '###' separator: the prefix `a` (no double '#'
inside and not ending in '#', packaged as NoHH of `a ++ ['#']`) becomes one
piece. -/
theorem splitSeq_append_sep :
    ∀ (a s : List Char), NoHH (a ++ ['#']) →
      splitSeq (a ++ '#' :: '#' :: '#' :: s) = a :: splitSeq s
  | [], s, _ => by
    rw [List.nil_append, splitSeq_cons3, if_pos ⟨rfl, rfl, rfl⟩]
  | c :: a', s, h => by
    have hch := h
    unfold NoHH at hch
    rw [List.cons_append] at hch
    rcases List.chain'_cons'.mp hch with ⟨hhead, htail⟩
    have hsafe : ¬(c = '#' ∧ (a' ++ '#' :: '#' :: '#' :: s).take 2 = ['#', '#']) := by
      apply take2_safe
      intro y hy
      apply hhead
      cases a' with
      | nil => exact hy
      | cons c2 a'' => exact hy
    rw [List.cons_append, splitSeq_cons_safe c _ hsafe,
      splitSeq_append_sep a' s htail, consHead_cons]

/-- A NoHH string contains no '###' at all and stays one piece. -/
theorem splitSeq_noSep : ∀ s, NoHH s → splitSeq s = [s]
  | [], _ => rfl
  | [c], _ => rfl
  | [c, d], _ => rfl
  | c :: d :: e :: rest, h => by
    rcases List.chain'_cons.mp h with ⟨hcd, htail⟩
    rw [splitSeq_cons3, if_neg (fun hc => hcd ⟨hc.1, hc.2.1⟩),
      splitSeq_noSep (d :: e :: rest) htail, consHead_cons]

/-- Prepending a safe prefix `a` merges it into the first piece of the
split. -/
theorem splitSeq_append_head :
    ∀ (a s : List Char) {p : List Char} {ps : List (List Char)},
      splitSeq s = p :: ps → NoHH (a ++ s.take 1) →
      splitSeq (a ++ s) = (a ++ p) :: ps
  | [], s, p, ps, hs, _ => by
    rw [List.nil_append, hs, List.nil_append]
  | c :: a', s, p, ps, hs, h => by
    have hch := h
    unfold NoHH at hch
    rw [List.cons_append] at hch
    rcases List.chain'_cons'.mp hch with ⟨hhead, htail⟩
    have hsafe : ¬(c = '#' ∧ (a' ++ s).take 2 = ['#', '#']) := by
      apply take2_safe
      intro y hy
      apply hhead
      cases a' with
      | nil =>
        cases s with
        | nil => simp at hy
        | cons s0 s' => exact hy
      | cons c2 a'' => exact hy
    rw [List.cons_append, splitSeq_cons_safe c _ hsafe,
      splitSeq_append_head a' s hs htail, consHead_cons, List.cons_append]

/-! ### The bordered text string splits into the maximal runs -/

theorem joinHash_cons2 (a b : List Char) (t : List (List Char)) :
    joinHash (a :: b :: t) = a ++ '#' :: joinHash (b :: t) := rfl

theorem borderStrs_cons2 (x y : Nat × Nat) (rest : List (Nat × Nat)) :
    borderStrs (x :: y :: rest) =
      (if x.2 + 1 < y.2 then natChars x.1 ++ ['#', '#'] else natChars x.1) ::
        borderStrs (y :: rest) := rfl

theorem borderStrs_shape (y : Nat × Nat) (t : List (Nat × Nat)) :
    ∃ s bs, borderStrs (y :: t) = s :: bs := by
  cases t with
  | nil => exact ⟨natChars y.1, [], rfl⟩
  | cons z t' => exact ⟨_, _, borderStrs_cons2 y z t'⟩

theorem noHH_append_of_ne :
    ∀ (u t : List Char), (∀ c ∈ u, c ≠ '#') → NoHH t → NoHH (u ++ t)
  | [], t, _, ht => ht
  | c :: u', t, hu, ht => by
    unfold NoHH
    rw [List.cons_append]
    refine List.chain'_cons'.mpr ⟨?_, noHH_append_of_ne u' t (fun d hd => hu d (List.mem_cons_of_mem c hd)) ht⟩
    intro y _ hb
    exact hu c (List.mem_cons_self c u') hb.1

theorem noHH_of_ne (u : List Char) (hu : ∀ c ∈ u, c ≠ '#') : NoHH u := by
  have := noHH_append_of_ne u [] hu List.chain'_nil
  rwa [List.append_nil] at this

theorem noHH_natChars_hash (n : Nat) : NoHH (natChars n ++ ['#']) :=
  noHH_append_of_ne (natChars n) ['#'] (natChars_digits n) (List.chain'_singleton _)

/-- The text string of a nonempty row list starts with a digit character. -/
theorem textStrB_head (y : Nat × Nat) (t : List (Nat × Nat)) :
    ∃ c s', textStrB (y :: t) = c :: s' ∧ c ≠ '#' := by
  obtain ⟨c, cs, hnc⟩ := List.exists_cons_of_ne_nil (natChars_ne_nil y.1)
  have hcd : c ≠ '#' := natChars_digits y.1 c (by rw [hnc]; exact List.mem_cons_self c cs)
  cases t with
  | nil =>
    refine ⟨c, cs, ?_, hcd⟩
    show joinHash [natChars y.1] = c :: cs
    rw [hnc]
    rfl
  | cons z t' =>
    obtain ⟨s, bs, hbs⟩ := borderStrs_shape z t'
    unfold textStrB
    rw [borderStrs_cons2, hbs, joinHash_cons2]
    by_cases hg : y.2 + 1 < z.2
    · rw [if_pos hg, hnc]
      exact ⟨c, cs ++ ['#', '#'] ++ '#' :: joinHash (s :: bs), by simp, hcd⟩
    · rw [if_neg hg, hnc]
      exact ⟨c, cs ++ '#' :: joinHash (s :: bs), by simp, hcd⟩

/-- Splitting the bordered text string of a strictly position-sorted nonempty
row list yields exactly one string per maximal run of consecutive positions:
the '#'-joined hash_id renderings of the run. -/
theorem splitSeq_textStrB :
    ∀ (ps : List (Nat × Nat)), List.Chain' (fun a b => a.2 < b.2) ps → ps ≠ [] →
      splitSeq (textStrB ps) =
        (posRuns ps).map (fun run => joinHash (run.map (fun e => natChars e.1)))
  | [], _, hne => absurd rfl hne
  | [x], _, _ => by
    have h1 : textStrB [x] = natChars x.1 := rfl
    rw [h1, splitSeq_noSep (natChars x.1) (noHH_of_ne _ (natChars_digits x.1))]
    rfl
  | x :: y :: t, h, _ => by
    rcases List.chain'_cons.mp h with ⟨hxy, hrest⟩
    have IH := splitSeq_textStrB (y :: t) hrest (List.cons_ne_nil y t)
    obtain ⟨g, gs, hg⟩ := chunkCons_shape consecPos y (chunkBy consecPos t)
    have hruns : posRuns (y :: t) = (y :: g) :: gs := hg
    obtain ⟨s, bs, hbs⟩ := borderStrs_shape y t
    have htse : textStrB (x :: y :: t) =
        (if x.2 + 1 < y.2 then natChars x.1 ++ ['#', '#'] else natChars x.1) ++
          '#' :: textStrB (y :: t) := by
      unfold textStrB
      rw [borderStrs_cons2, hbs, joinHash_cons2]
    rw [hruns, List.map_cons] at IH
    by_cases hgap : x.2 + 1 < y.2
    · -- a gap: the marker '##' plus the joining '#' form the separator
      have hposr : posRuns (x :: y :: t) = [x] :: (y :: g) :: gs := by
        show chunkCons consecPos x (posRuns (y :: t)) = _
        rw [hruns, chunkCons_cons, if_neg (by simp [consecPos]; omega)]
      rw [htse, if_pos hgap, hposr, List.append_assoc]
      show splitSeq (natChars x.1 ++ '#' :: '#' :: '#' :: textStrB (y :: t)) = _
      rw [splitSeq_append_sep (natChars x.1) _ (noHH_natChars_hash x.1), IH]
      rfl
    · -- consecutive: x joins the first run of (y :: t)
      have hconsec : consecPos x y = true := by
        simp only [consecPos, decide_eq_true_eq]
        omega
      have hposr : posRuns (x :: y :: t) = (x :: y :: g) :: gs := by
        show chunkCons consecPos x (posRuns (y :: t)) = _
        rw [hruns, chunkCons_cons, if_pos hconsec]
      obtain ⟨c0, s0, hts, hc0⟩ := textStrB_head y t
      have hnoHH : NoHH ((natChars x.1 ++ ['#']) ++ (textStrB (y :: t)).take 1) := by
        rw [hts, List.take_succ_cons, List.take_zero, List.append_assoc]
        refine noHH_append_of_ne _ _ (natChars_digits x.1) ?_
        exact List.chain'_cons.mpr ⟨fun hb => hc0 hb.2, List.chain'_singleton c0⟩
      rw [htse, if_neg hgap, hposr]
      have happ : natChars x.1 ++ '#' :: textStrB (y :: t) =
          (natChars x.1 ++ ['#']) ++ textStrB (y :: t) := by
        rw [List.append_assoc]
        rfl
      rw [happ, splitSeq_append_head (natChars x.1 ++ ['#']) _ IH hnoHH]
      rw [List.map_cons, List.map_cons]
      congr 1
      simp only [List.map_cons]
      rw [joinHash_cons2, List.append_assoc]
      rfl
termination_by ps => ps.length

/-! ### Sorting result rows preserves membership -/

theorem insertRow_perm (x : ResultRow) : ∀ l, List.Perm (insertRow x l) (x :: l)
  | [] => List.Perm.refl _
  | y :: ys => by
    unfold insertRow
    split
    · exact List.Perm.refl _
    · exact ((insertRow_perm x ys).cons y).trans (List.Perm.swap x y ys)

theorem sortByFreq_perm : ∀ l, List.Perm (sortByFreq l) l
  | [] => List.Perm.refl _
  | x :: xs => (insertRow_perm x (sortByFreq xs)).trans ((sortByFreq_perm xs).cons x)

/-! ### Membership in the searcher outputs -/

theorem mem_textIds_iff {tbl : List PostRow} {d : Nat} :
    d ∈ textIds tbl ↔ ∃ r ∈ tbl, r.text_id = d := by
  unfold textIds
  rw [List.mem_dedup, List.mem_map]

theorem textRows_ne_nil_of_qualifies {tbl : List PostRow} {Q : List Nat} {d : Nat}
    (hQ : Q ≠ []) (h : qualifies tbl Q d = true) : ∃ r ∈ tbl, r.text_id = d := by
  simp only [qualifies, decide_eq_true_eq] at h
  have hQpos : 0 < distinctCount Q := by
    unfold distinctCount
    have : Q.dedup ≠ [] := fun hc => hQ ((List.dedup_eq_nil Q).mp hc)
    exact List.length_pos.mpr this
  rw [← h] at hQpos
  unfold distinctCount at hQpos
  have : (textRows tbl d).map (fun r => r.hash_id) ≠ [] := by
    intro hc
    rw [hc] at hQpos
    simp at hQpos
  rcases hrow : textRows tbl d with _ | ⟨r, rest⟩
  · rw [hrow] at this
    simp at this
  · have hr : r ∈ tbl.filter (fun r => decide (r.text_id = d)) := by
      rw [show tbl.filter (fun r => decide (r.text_id = d)) = textRows tbl d from rfl, hrow]
      exact List.mem_cons_self r rest
    rcases List.mem_filter.mp hr with ⟨hrt, hrd⟩
    exact ⟨r, hrt, by simpa using hrd⟩

/-- Membership of a text in the pre-ranking rows of the islands searcher. -/
theorem mem_exactPhraseRows {tbl : List PostRow} {Q : List Nat}
    {wc : List (Nat × Nat)} {d : Nat} (hQ : Q ≠ []) :
    (∃ r ∈ TwigaCoreSearch.exactPhraseRows tbl Q wc, r.text_id = d) ↔
      qualifies tbl Q d = true ∧ 0 < phraseCountA tbl Q d := by
  unfold TwigaCoreSearch.exactPhraseRows
  constructor
  · rintro ⟨r, hr, rfl⟩
    rcases List.mem_map.mp hr with ⟨d', hd', rfl⟩
    rcases List.mem_filter.mp hd' with ⟨_, hcond⟩
    simp only [Bool.and_eq_true] at hcond
    rcases hcond with ⟨h1, h2⟩
    exact ⟨h1, by simpa using h2⟩
  · rintro ⟨h1, h2⟩
    have hd : d ∈ textIds tbl := by
      rcases textRows_ne_nil_of_qualifies hQ h1 with ⟨r, hr, hrd⟩
      exact mem_textIds_iff.mpr ⟨r, hr, hrd⟩
    refine ⟨mkRow wc d (phraseCountA tbl Q d * Q.length), List.mem_map.mpr ⟨d, ?_, rfl⟩, rfl⟩
    exact List.mem_filter.mpr ⟨hd, by simp [h1, h2]⟩

/-- Membership of a text in the pre-ranking rows of the bordered-islands
searcher. -/
theorem mem_multiWordsRows {tbl : List PostRow} {Q : List Nat}
    {wc : List (Nat × Nat)} {d : Nat} (hQ : Q ≠ []) :
    (∃ r ∈ TwigaCore.multiWordsRows tbl Q wc, r.text_id = d) ↔
      qualifies tbl Q d = true ∧ 0 < phraseCountB tbl Q d := by
  unfold TwigaCore.multiWordsRows
  constructor
  · rintro ⟨r, hr, rfl⟩
    rcases List.mem_map.mp hr with ⟨d', hd', rfl⟩
    rcases List.mem_filter.mp hd' with ⟨_, hcond⟩
    simp only [Bool.and_eq_true] at hcond
    rcases hcond with ⟨h1, h2⟩
    exact ⟨h1, by simpa using h2⟩
  · rintro ⟨h1, h2⟩
    have hd : d ∈ textIds tbl := by
      rcases textRows_ne_nil_of_qualifies hQ h1 with ⟨r, hr, hrd⟩
      exact mem_textIds_iff.mpr ⟨r, hr, hrd⟩
    refine ⟨mkRow wc d (phraseCountB tbl Q d * Q.length), List.mem_map.mpr ⟨d, ?_, rfl⟩, rfl⟩
    exact List.mem_filter.mpr ⟨hd, by simp [h1, h2]⟩

/-- With LIMIT 0 ('unlimited'), the islands searcher returns a row for text d
exactly when d is in the pre-ranking rows. -/
theorem exact_phrase_searcher_mem {tbl : List PostRow} {Q : List Nat}
    {wc : List (Nat × Nat)} {d : Nat} :
    (∃ rows, TwigaCoreSearch.twiga_exact_phrase_searcher tbl Q wc 0 = some rows ∧
        ∃ r ∈ rows, r.text_id = d) ↔
      (∃ r ∈ TwigaCoreSearch.exactPhraseRows tbl Q wc, r.text_id = d) := by
  unfold TwigaCoreSearch.twiga_exact_phrase_searcher
  simp only [Nat.lt_irrefl, if_false]
  constructor
  · rintro ⟨rows, hrows, r, hr, hrd⟩
    have hsome : sortByFreq (TwigaCoreSearch.exactPhraseRows tbl Q wc) = rows := by
      by_cases hemp : (sortByFreq (TwigaCoreSearch.exactPhraseRows tbl Q wc)).isEmpty
      · rw [if_pos hemp] at hrows
        cases hrows
      · rw [if_neg hemp] at hrows
        exact (Option.some.injEq _ _).mp hrows
    refine ⟨r, ?_, hrd⟩
    rw [← hsome] at hr
    exact (sortByFreq_perm _).mem_iff.mp hr
  · rintro ⟨r, hr, hrd⟩
    have hmem : r ∈ sortByFreq (TwigaCoreSearch.exactPhraseRows tbl Q wc) :=
      (sortByFreq_perm _).mem_iff.mpr hr
    have hne : ¬(sortByFreq (TwigaCoreSearch.exactPhraseRows tbl Q wc)).isEmpty := by
      intro hc
      rw [List.isEmpty_iff] at hc
      rw [hc] at hmem
      exact absurd hmem (List.not_mem_nil r)
    rw [if_neg hne]
    exact ⟨_, rfl, r, hmem, hrd⟩

/-! ### Island counts as run conditions (under well-formedness) -/

theorem textRows_eq_nil_of_not_mem {tbl : List PostRow} {d : Nat}
    (hd : d ∉ textIds tbl) : textRows tbl d = [] := by
  unfold textRows
  rw [List.filter_eq_nil_iff]
  intro r hr hrd
  exact hd (mem_textIds_iff.mpr ⟨r, hr, by simpa using hrd⟩)

theorem mem_textIds_of_flat {tbl : List PostRow} {d : Nat}
    (h : flatPairs tbl d ≠ []) : d ∈ textIds tbl := by
  rcases hf : flatPairs tbl d with _ | ⟨pr, rest⟩
  · exact absurd hf h
  · have hm : pr ∈ flatPairs tbl d := by
      rw [hf]
      exact List.mem_cons_self pr rest
    unfold flatPairs at hm
    rcases List.mem_flatMap.mp hm with ⟨r, hr, _⟩
    rcases List.mem_filter.mp hr with ⟨hrt, hrd⟩
    exact mem_textIds_iff.mpr ⟨r, hrt, by simpa using hrd⟩

theorem seqGroups_sortedPairs_eq {tbl : List PostRow} (hwf : WFTable tbl) (d : Nat) :
    seqGroups (sortedPairs tbl d) = posRuns (sortedPairs tbl d) := by
  by_cases hd : d ∈ textIds tbl
  · exact seqGroups_eq_posRuns _ (sortedPairs_strict tbl d (hwf d hd))
  · have h1 : sortedPairs tbl d = [] := by
      unfold sortedPairs flatPairs
      rw [textRows_eq_nil_of_not_mem hd]
      rfl
    rw [h1]
    rfl

theorem dedup_flatPairs {tbl : List PostRow} (hwf : WFTable tbl) (d : Nat) :
    (flatPairs tbl d).dedup = flatPairs tbl d := by
  by_cases hd : d ∈ textIds tbl
  · exact List.dedup_eq_self.mpr ((hwf d hd).of_map _)
  · unfold flatPairs
    rw [textRows_eq_nil_of_not_mem hd]
    rfl

/-- The islands searcher counts a text iff some maximal run has exactly the
query length and renders to the query's concatenated string. -/
theorem phraseCountA_pos_iff {tbl : List PostRow} {Q : List Nat} {d : Nat}
    (hwf : WFTable tbl) :
    0 < phraseCountA tbl Q d ↔
      ∃ run ∈ posRuns (sortedPairs tbl d),
        run.length = Q.length ∧
          concatIds (run.map (fun e => e.1)) = concatIds Q := by
  unfold phraseCountA seqStringsA
  rw [seqGroups_sortedPairs_eq hwf d, List.length_pos_iff_exists_mem]
  constructor
  · rintro ⟨s, hs⟩
    rcases List.mem_filter.mp hs with ⟨hmem, hps⟩
    rcases List.mem_map.mp hmem with ⟨g, hg, rfl⟩
    rcases List.mem_filter.mp hg with ⟨hgruns, hglen⟩
    exact ⟨g, hgruns, by simpa using hglen, by simpa using hps⟩
  · rintro ⟨run, hrun, hlen, hstr⟩
    refine ⟨concatIds (run.map (fun e => e.1)), List.mem_filter.mpr ⟨?_, by simp [hstr]⟩⟩
    exact List.mem_map.mpr ⟨run, List.mem_filter.mpr ⟨hrun, by simp [hlen]⟩, rfl⟩

/-- If a maximal run renders (with separators) to the query string, the
bordered-islands searcher counts the text. -/
theorem phraseCountB_pos {tbl : List PostRow} {Q : List Nat} {d : Nat}
    {run : List (Nat × Nat)} (hwf : WFTable tbl)
    (hrun : run ∈ posRuns (sortedPairs tbl d))
    (hids : joinHash (run.map (fun e => natChars e.1)) = joinIds Q) :
    0 < phraseCountB tbl Q d := by
  have hne : sortedPairs tbl d ≠ [] := by
    intro hc
    rw [hc] at hrun
    exact absurd hrun (List.not_mem_nil run)
  have hflat : flatPairs tbl d ≠ [] := by
    intro hc
    apply hne
    unfold sortedPairs
    rw [hc]
    rfl
  have hd : d ∈ textIds tbl := mem_textIds_of_flat hflat
  have hstrict := sortedPairs_strict tbl d (hwf d hd)
  have hsplit := splitSeq_textStrB (sortedPairs tbl d) hstrict hne
  unfold phraseCountB
  rw [dedup_flatPairs hwf d]
  show 0 < ((splitSeq (textStrB (sortedPairs tbl d))).filter
    (fun s => condB (joinIds Q) s)).length
  rw [hsplit, List.length_pos_iff_exists_mem]
  refine ⟨joinHash (run.map (fun e => natChars e.1)), List.mem_filter.mpr ⟨?_, ?_⟩⟩
  · exact List.mem_map.mpr ⟨run, hrun, rfl⟩
  · simp [condB, hids]

/-! ### Single-digit hash ids render unambiguously -/

theorem concatIds_single_digits :
    ∀ {ids : List Nat}, (∀ i ∈ ids, i < 10) → concatIds ids = ids.map digitChar
  | [], _ => rfl
  | i :: t, h => by
    unfold concatIds
    rw [List.map_cons, List.flatten_cons,
      natChars_single (h i (List.mem_cons_self i t)), List.map_cons]
    have IH := concatIds_single_digits (fun j hj => h j (List.mem_cons_of_mem i hj))
    unfold concatIds at IH
    rw [IH]
    rfl

theorem map_digitChar_inj :
    ∀ {a b : List Nat}, (∀ i ∈ a, i < 10) → (∀ i ∈ b, i < 10) →
      a.map digitChar = b.map digitChar → a = b
  | [], [], _, _, _ => rfl
  | [], _ :: _, _, _, h => by simp at h
  | _ :: _, [], _, _, h => by simp at h
  | i :: a, j :: b, ha, hb, h => by
    rw [List.map_cons, List.map_cons] at h
    rcases (List.cons.injEq _ _ _ _).mp h with ⟨h1, h2⟩
    rw [digitChar_inj (ha i (List.mem_cons_self i a)) (hb j (List.mem_cons_self j b)) h1,
      map_digitChar_inj (fun x hx => ha x (List.mem_cons_of_mem i hx))
        (fun x hx => hb x (List.mem_cons_of_mem j hx)) h2]

theorem pair_hash_lt {tbl : List PostRow} {d : Nat}
    (hids : ∀ r ∈ tbl, r.hash_id < 10) {pr : Nat × Nat}
    (hpr : pr ∈ flatPairs tbl d) : pr.1 < 10 := by
  unfold flatPairs at hpr
  rcases List.mem_flatMap.mp hpr with ⟨r, hr, hmap⟩
  rcases List.mem_map.mp hmap with ⟨p, _, rfl⟩
  rcases List.mem_filter.mp hr with ⟨hrt, _⟩
  exact hids r hrt

/-- Containment of the islands searcher in the bordered-islands searcher for
single-digit hash ids: any text the former returns, the latter returns. -/
theorem exactRows_subset_multiRows {tbl : List PostRow} {Q : List Nat}
    {wc : List (Nat × Nat)} {d : Nat} (hwf : WFTable tbl)
    (hids10 : ∀ r ∈ tbl, r.hash_id < 10) (hQ10 : ∀ q ∈ Q, q < 10) (hQ : Q ≠ [])
    (hA : ∃ r ∈ TwigaCoreSearch.exactPhraseRows tbl Q wc, r.text_id = d) :
    ∃ r ∈ TwigaCore.multiWordsRows tbl Q wc, r.text_id = d := by
  rcases (mem_exactPhraseRows hQ).mp hA with ⟨hq, hcount⟩
  rcases (phraseCountA_pos_iff hwf).mp hcount with ⟨run, hrun, hlen, hstr⟩
  have hrun10 : ∀ i ∈ run.map (fun e => e.1), i < 10 := by
    intro i hi
    rcases List.mem_map.mp hi with ⟨pr, hpr, rfl⟩
    have hs : pr ∈ sortedPairs tbl d := mem_of_mem_chunkBy hrun hpr
    exact pair_hash_lt hids10 ((sortByPos_perm _).mem_iff.mp hs)
  have hids_eq : run.map (fun e => e.1) = Q := by
    apply map_digitChar_inj hrun10 hQ10
    rw [← concatIds_single_digits hrun10, ← concatIds_single_digits hQ10, hstr]
  have hjoin : joinHash (run.map (fun e => natChars e.1)) = joinIds Q := by
    unfold joinIds
    have hmm : run.map (fun e => natChars e.1) = (run.map (fun e => e.1)).map natChars := by
      rw [List.map_map]
      rfl
    rw [hmm, hids_eq]
  exact (mem_multiWordsRows hQ).mpr ⟨hq, phraseCountB_pos hwf hrun hjoin⟩

/-! ### Reader lemmas -/

theorem optMap_eq_none {f : Nat → Option Nat} :
    ∀ {l : List Nat} {x : Nat}, x ∈ l → f x = none → optMap f l = none
  | [], x, hx, _ => absurd hx (List.not_mem_nil x)
  | y :: ys, x, hx, hfx => by
    unfold optMap
    rcases List.mem_cons.mp hx with rfl | hx'
    · rw [hfx]
    · cases hfy : f y with
      | none => rfl
      | some v =>
        rw [optMap_eq_none hx' hfx]

theorem lookupLast_none {m : List (Nat × Nat)} {h : Nat}
    (hab : ∀ e ∈ m, e.1 ≠ h) : lookupLast m h = none := by
  unfold lookupLast
  rw [List.find?_eq_none.mpr (fun e he => by
    simp only [decide_eq_true_eq]
    exact hab e (List.mem_reverse.mp he))]
  rfl

theorem readerMapping_hash_ne {db : IndexDB} {bins_total : Nat}
    {request_hash_list : List Nat} {h : Nat}
    (habs : ∀ e ∈ db.dict (binOf bins_total h), e.1 ≠ h) :
    ∀ e ∈ TwigaCore.readerMapping db bins_total request_hash_list, e.1 ≠ h := by
  intro e he heq
  unfold TwigaCore.readerMapping at he
  simp only at he
  have heX : e ∈ ((request_hash_list.dedup.map (binOf bins_total)).dedup).flatMap
      (fun b => (db.dict b).filter
        (fun e => (TwigaCore.readerBinList bins_total request_hash_list b).contains e.1)) := by
    split at he
    · exact List.mem_dedup.mp he
    · exact he
  rcases List.mem_flatMap.mp heX with ⟨b, _, hef⟩
  rcases List.mem_filter.mp hef with ⟨hed, hcont⟩
  have hmem : e.1 ∈ TwigaCore.readerBinList bins_total request_hash_list b := by
    have := List.contains_iff_exists_mem_beq.mp hcont
    rcases this with ⟨a, ha, hba⟩
    rwa [show e.1 = a from by simpa using hba]
  unfold TwigaCore.readerBinList at hmem
  rcases List.mem_filter.mp hmem with ⟨_, hbin⟩
  simp only [decide_eq_true_eq] at hbin
  rw [heq] at hbin
  rw [← hbin] at hed
  exact habs e hed heq

/-! ### Batch indexer lemmas -/

namespace TwigaCoreIndex

theorem hasherBatchesAux_flatten (maxW : Nat) :
    ∀ (docs cur : List (Nat × List String)) (cnt : Nat),
      (hasherBatchesAux maxW docs cur cnt).flatten = cur ++ docs
  | [], cur, cnt => by
    show [cur].flatten = cur ++ []
    simp
  | (tid, ws) :: rest, cur, cnt => by
    unfold hasherBatchesAux
    split
    · rw [List.flatten_cons, hasherBatchesAux_flatten maxW rest [(tid, ws)] ws.length]
      simp
    · rw [hasherBatchesAux_flatten maxW rest (cur ++ [(tid, ws)]) (cnt + ws.length)]
      simp

theorem hasherBatches_flatten (maxW : Nat) (docs : List (Nat × List String)) :
    (hasherBatches maxW docs).flatten = docs := by
  unfold hasherBatches
  rw [hasherBatchesAux_flatten]
  rfl

theorem batchWords_append_one (cur : List (Nat × List String)) (t : Nat × List String) :
    batchWords (cur ++ [t]) = batchWords cur + t.2.length := by
  unfold batchWords
  rw [List.map_append, List.sum_append]
  simp

theorem hasherBatchesAux_bound (maxW : Nat) :
    ∀ (docs cur : List (Nat × List String)) (cnt : Nat),
      cnt = batchWords cur → cnt ≤ maxW →
      (∀ t ∈ docs, t.2.length ≤ maxW) →
      ∀ b ∈ hasherBatchesAux maxW docs cur cnt, batchWords b ≤ maxW
  | [], cur, cnt, hcnt, hle, _, b, hb => by
    rcases List.mem_cons.mp hb with rfl | hb'
    · rw [← hcnt]
      exact hle
    · exact absurd hb' (List.not_mem_nil b)
  | (tid, ws) :: rest, cur, cnt, hcnt, hle, hdocs, b, hb => by
    unfold hasherBatchesAux at hb
    split at hb
    · rcases List.mem_cons.mp hb with rfl | hb'
      · rw [← hcnt]
        exact hle
      · refine hasherBatchesAux_bound maxW rest [(tid, ws)] ws.length ?_ ?_ ?_ b hb'
        · unfold batchWords
          simp
        · exact hdocs (tid, ws) (List.mem_cons_self _ _)
        · exact fun t ht => hdocs t (List.mem_cons_of_mem _ ht)
    · refine hasherBatchesAux_bound maxW rest (cur ++ [(tid, ws)]) (cnt + ws.length)
        ?_ ?_ ?_ b hb
      · rw [batchWords_append_one, hcnt]
      · omega
      · exact fun t ht => hdocs t (List.mem_cons_of_mem _ ht)

/-- Every sub-batch stays within the word budget, provided no single document
exceeds it on its own. -/
theorem hasherBatches_bound (maxW : Nat) (docs : List (Nat × List String))
    (h : ∀ t ∈ docs, t.2.length ≤ maxW) :
    ∀ b ∈ hasherBatches maxW docs, batchWords b ≤ maxW :=
  hasherBatchesAux_bound maxW docs [] 0 rfl (Nat.zero_le _) h

/-- The word_counts list the hasher produces for a sub-batch given as its
parallel id/word lists. -/
theorem hasher_word_counts (b : List (Nat × List String)) (bins : Nat) :
    (twiga_index_hasher (b.map (fun t => t.1)) (b.map (fun t => t.2)) bins).2.2.2 =
      b.map (fun t => (t.1, t.2.length)) := by
  unfold twiga_index_hasher
  rw [List.zip_map' (fun t => t.1) (fun t => t.2) b]
  simp

/-- The whole write path produces exactly one word_counts row per input
document, carrying the stopword-filtered token count, in input order. -/
theorem writer_word_counts_eq (stopword_set : List String) (text_id_list : List Nat)
    (text_words_list : List (List String)) (maxW bins : Nat) :
    twiga_index_writer_word_counts stopword_set text_id_list text_words_list maxW bins =
      (text_id_list.zip (text_words_list.map (filteredWords stopword_set))).map
        (fun t => (t.1, t.2.length)) := by
  unfold twiga_index_writer_word_counts
  have h1 : ∀ batches : List (List (Nat × List String)),
      (batches.map (fun b =>
        (twiga_index_hasher (b.map (fun t => t.1)) (b.map (fun t => t.2))
          bins).2.2.2)).flatten =
      (batches.flatten).map (fun t => (t.1, t.2.length)) := by
    intro batches
    rw [List.map_flatten]
    congr 1
    exact List.map_congr_left (fun b _ => hasher_word_counts b bins)
  rw [h1, hasherBatches_flatten]

end TwigaCoreIndex

theorem mem_zip_map {f : List String → List String} :
    ∀ {tids : List Nat} {wss : List (List String)} {a : Nat} {b : List String},
      (a, b) ∈ tids.zip wss → (a, f b) ∈ tids.zip (wss.map f)
  | [], _, a, b, h => absurd h (by simp)
  | _ :: _, [], a, b, h => absurd h (by simp)
  | t :: ts, w :: wsl, a, b, h => by
    rcases List.mem_cons.mp h with he | h'
    · rcases (Prod.mk.injEq _ _ _ _).mp he with ⟨rfl, rfl⟩
      exact List.mem_cons_self _ _
    · exact List.mem_cons_of_mem _ (mem_zip_map h')

theorem filter_eq_singleton_of_nodup :
    ∀ (l : List (Nat × Nat)) (a b : Nat), (l.map Prod.fst).Nodup → (a, b) ∈ l →
      l.filter (fun e => decide (e.1 = a)) = [(a, b)]
  | [], a, b, _, hm => absurd hm (List.not_mem_nil _)
  | (x, y) :: t, a, b, hnd, hm => by
    rw [List.map_cons, List.nodup_cons] at hnd
    rcases hnd with ⟨hx, hnd'⟩
    rcases List.mem_cons.mp hm with he | hm'
    · obtain ⟨ha, hb⟩ := (Prod.mk.injEq _ _ _ _).mp he
      subst ha
      subst hb
      rw [List.filter_cons_of_pos (by simp)]
      congr 1
      rw [List.filter_eq_nil_iff]
      intro e he2 hc
      simp only [decide_eq_true_eq] at hc
      apply hx
      rw [← hc]
      have hfst2 : Prod.fst e ∈ t.map Prod.fst := List.mem_map_of_mem Prod.fst he2
      exact hfst2
    · have hxa : x ≠ a := by
        intro hc
        apply hx
        rw [hc]
        have hfst : Prod.fst (a, b) ∈ t.map Prod.fst := List.mem_map_of_mem Prod.fst hm'
        exact hfst
      rw [List.filter_cons_of_neg (by simp [hxa])]
      exact filter_eq_singleton_of_nodup t a b hnd' hm'

/-! ## The claims -/

/-- C1 (counterexample): in the text w0 w1 w0 the phrase (hash 0, hash 1)
occurs at start position 0, yet twiga_core_search.twiga_exact_phrase_searcher
returns no rows: the occurrence sits inside a maximal island of length 3,
which the HAVING COUNT(hash_id) = 2 filter discards.  The claimed
"if and only if" is false. -/
theorem c1_counterexample :
    phraseOccursAt tblBCB [0, 1] 1 0 ∧
      TwigaCoreSearch.twiga_exact_phrase_searcher tblBCB [0, 1] wcBCB 0 = none :=
  ⟨by decide, by decide⟩

/-- C1 (amended): for every well-formed postings table and non-empty query,
the islands-based exact-phrase searcher (unlimited) returns a text d iff
d carries all distinct query hash_ids and the flattened postings of d contain
a MAXIMAL run of consecutive positions of length exactly L whose concatenated
hash_id rendering equals that of Q.  Phrase occurrences embedded in longer
runs are not returned. -/
theorem c1_exact_phrase_characterization (tbl : List PostRow) (Q : List Nat)
    (wc : List (Nat × Nat)) (d : Nat) (hwf : WFTable tbl) (hQ : Q ≠ []) :
    (∃ rows, TwigaCoreSearch.twiga_exact_phrase_searcher tbl Q wc 0 = some rows ∧
        ∃ r ∈ rows, r.text_id = d) ↔
      (qualifies tbl Q d = true ∧
        ∃ run ∈ posRuns (sortedPairs tbl d),
          run.length = Q.length ∧
            concatIds (run.map (fun e => e.1)) = concatIds Q) := by
  rw [exact_phrase_searcher_mem, mem_exactPhraseRows hQ, phraseCountA_pos_iff hwf]

/-- C1 (witness): the characterization applied to a table where text 1 holds
the clean phrase (0, 1). -/
theorem c1_witness :
    WFTable tblPair ∧
      ((∃ rows,
          TwigaCoreSearch.twiga_exact_phrase_searcher tblPair [0, 1] wcPair 0 =
            some rows ∧ ∃ r ∈ rows, r.text_id = 1) ↔
        (qualifies tblPair [0, 1] 1 = true ∧
          ∃ run ∈ posRuns (sortedPairs tblPair 1),
            run.length = ([0, 1] : List Nat).length ∧
              concatIds (run.map (fun e => e.1)) = concatIds [0, 1])) :=
  ⟨by decide,
    c1_exact_phrase_characterization tblPair [0, 1] wcPair 1 (by decide) (by decide)⟩

/-- C2 (counterexample): on the text w0 w1 w0 with query (0, 1) and the same
limit, the islands searcher of twiga_core_search.py returns null while the
bordered-islands searcher of twiga_core.py returns the text with
matching_words 2: the two SQL realizations do not produce identical result
sets. -/
theorem c2_counterexample :
    TwigaCoreSearch.twiga_exact_phrase_searcher tblBCB [0, 1] wcBCB 10 = none ∧
      TwigaCore.twiga_multiple_words_searcher tblBCB [0, 1] wcBCB 10 =
        some [⟨1, 2, some 3, some 66667⟩] :=
  ⟨by decide, by decide⟩

/-- C2 (amended): the two realizations are not equivalent; what holds is a
containment: for well-formed tables whose hash_ids (and the query's) are
single decimal digits — as the index reader produces for queries of at most
ten distinct terms — every text returned by the islands searcher is also
returned by the bordered-islands searcher (scores may differ). -/
theorem c2_containment (tbl : List PostRow) (Q : List Nat) (wc : List (Nat × Nat))
    (d : Nat) (hwf : WFTable tbl) (h10t : ∀ r ∈ tbl, r.hash_id < 10)
    (h10q : ∀ q ∈ Q, q < 10) (hQ : Q ≠ [])
    (hA : ∃ r ∈ TwigaCoreSearch.exactPhraseRows tbl Q wc, r.text_id = d) :
    ∃ r ∈ TwigaCore.multiWordsRows tbl Q wc, r.text_id = d :=
  exactRows_subset_multiRows hwf h10t h10q hQ hA

/-- C2 (witness): the containment applied to the clean phrase table. -/
theorem c2_witness : ∃ r ∈ TwigaCore.multiWordsRows tblPair [0, 1] wcPair, r.text_id = 1 :=
  c2_containment tblPair [0, 1] wcPair 1 (by decide) (by decide) (by decide)
    (by decide) (by decide)

/-- C3: the search-side request hasher produces 32-hex-character digests
(BLAKE2b digest_size=16) while the index-side hasher produces
64-hex-character digests (digest_size=32); the hashes of the same token can
never be equal, so hash_query round-trips fail against an index built by
twiga_core_index.py. -/
theorem c3_digest_mismatch :
    (∀ h ∈ TwigaCoreSearch.twiga_request_hasher ["brown"], h.length = 32) ∧
      (TwigaCoreIndex.hashWord "brown").length = 64 ∧
      TwigaCoreSearch.twiga_request_hasher ["brown"] ≠
        [TwigaCoreIndex.hashWord "brown"] :=
  ⟨by decide, by decide, by decide⟩

/-- C4: for the document with tokens ab ab, twiga_index_hasher emits one
record per OCCURRENCE, each carrying the full positions list [0, 1]; the
stored postings rows of the text then sum their positions lengths to 4, while
words_total is recorded as 2 — invariant 2 of the data model is violated for
any document with a repeated token. -/
theorem c4_duplicate_postings :
    TwigaCoreIndex.sumPositions
        (TwigaCoreIndex.twiga_index_hasher [1] [["ab", "ab"]] 8).2.2.1 1 = 4 ∧
      (TwigaCoreIndex.twiga_index_hasher [1] [["ab", "ab"]] 8).2.2.2 = [(1, 2)] ∧
      (4 : Nat) ≠ 2 :=
  ⟨by decide, by decide, by decide⟩

/-- C5 (counterexample): the reader of twiga_core_search.py never consults
the dictionary to build its hash_id mapping; with hash 5 absent from every
bin of an empty database it still returns a hash_id list and an (empty)
postings table instead of (None, None). -/
theorem c5_counterexample :
    TwigaCoreSearch.twiga_index_reader sdbEmpty 4 [5] = some ([0], []) := by
  decide

/-- C5 (amended): the reader of twiga_core.py does return (None, None)
whenever some request hash is absent from its shard's dictionary. -/
theorem c5_core_reader_null (db : IndexDB) (bins_total : Nat)
    (request_hash_list : List Nat) (h : Nat) (hmem : h ∈ request_hash_list)
    (habs : ∀ e ∈ db.dict (binOf bins_total h), e.1 ≠ h) :
    TwigaCore.twiga_index_reader db bins_total request_hash_list = none := by
  unfold TwigaCore.twiga_index_reader
  rw [if_neg (show ¬(request_hash_list = []) from fun hc => by
    rw [hc] at hmem
    exact absurd hmem (List.not_mem_nil h))]
  rw [optMap_eq_none hmem (lookupLast_none (readerMapping_hash_ne habs))]

/-- C5 (witness): the core reader applied to an empty database. -/
theorem c5_witness : TwigaCore.twiga_index_reader dbEmpty 4 [5] = none :=
  c5_core_reader_null dbEmpty 4 [5] 5 (by decide)
    (fun e he => absurd he (List.not_mem_nil e))

/-- C6: on d5 = "ab ab ab" (hash 0 at positions 0, 1, 2) with query (0, 0),
the phrase does occur at start positions 0 and 1, but the islands searcher
returns null (the single island has length 3, not 2) and the bordered-islands
searcher counts 1 island, returning matching_words 2 and term_frequency
0.66667 — not the matching_words 4 and term_frequency 1.33333 the claim
requires. -/
theorem c6_repeated_phrase_eval :
    phraseOccursAt tblABAB [0, 0] 5 0 ∧ phraseOccursAt tblABAB [0, 0] 5 1 ∧
      TwigaCoreSearch.twiga_exact_phrase_searcher tblABAB [0, 0] wcABAB 0 = none ∧
      TwigaCore.twiga_multiple_words_searcher tblABAB [0, 0] wcABAB 10 =
        some [⟨5, 2, some 3, some 66667⟩] :=
  ⟨by decide, by decide, by decide, by decide⟩

/-- C7: after the write path of twiga_core_index.twiga_index_writer
(stopword filter, word-budget sub-batching, per-sub-batch hashing,
concatenation), every document of a batch with distinct text ids has exactly
one word_counts row, holding the count of its tokens that survive the
stopword filter. -/
theorem c7_word_counts (stopword_set : List String) (text_id_list : List Nat)
    (text_words_list : List (List String)) (maxW bins : Nat) (d : Nat)
    (ws : List String) (hlen : text_id_list.length = text_words_list.length)
    (hnd : text_id_list.Nodup)
    (hmem : (d, ws) ∈ text_id_list.zip text_words_list) :
    (TwigaCoreIndex.twiga_index_writer_word_counts stopword_set text_id_list
        text_words_list maxW bins).filter (fun e => decide (e.1 = d)) =
      [(d, (TwigaCoreIndex.filteredWords stopword_set ws).length)] := by
  rw [TwigaCoreIndex.writer_word_counts_eq]
  apply filter_eq_singleton_of_nodup
  · have h1 : ((text_id_list.zip
        (text_words_list.map (TwigaCoreIndex.filteredWords stopword_set))).map
          (fun t => ((t.1 : Nat), t.2.length))).map Prod.fst =
        (text_id_list.zip
          (text_words_list.map (TwigaCoreIndex.filteredWords stopword_set))).map
            (fun t => t.1) := by
      rw [List.map_map]
      rfl
    rw [h1]
    have h2 : (text_id_list.zip
        (text_words_list.map (TwigaCoreIndex.filteredWords stopword_set))).map
          (fun t => t.1) = text_id_list := by
      have := List.map_fst_zip text_id_list
        (text_words_list.map (TwigaCoreIndex.filteredWords stopword_set))
        (by rw [List.length_map]; omega)
      exact this
    rw [h2]
    exact hnd
  · have hz : (d, TwigaCoreIndex.filteredWords stopword_set ws) ∈
        text_id_list.zip (text_words_list.map (TwigaCoreIndex.filteredWords stopword_set)) :=
      mem_zip_map hmem
    have := List.mem_map_of_mem (fun t => ((t.1 : Nat), t.2.length)) hz
    exact this

/-- C7 (witness): a two-document batch with a stopword. -/
theorem c7_witness :
    (TwigaCoreIndex.twiga_index_writer_word_counts ["the"] [1, 2]
        [["the", "cat"], ["dog"]] 10 8).filter (fun e => decide (e.1 = 1)) =
      [(1, 1)] :=
  c7_word_counts ["the"] [1, 2] [["the", "cat"], ["dog"]] 10 8 1 ["the", "cat"]
    (by decide) (by decide) (by decide)

/-- C8 (counterexample): with hasher_batch_maximum 2, a single document of 3
words forms a sub-batch of combined word count 3 > 2 (the loop flushes the
current — still empty — sub-batch and opens a new one with the oversized
document); the claimed universal bound is false. -/
theorem c8_counterexample :
    TwigaCoreIndex.hasherBatches 2 [(1, ["a", "b", "c"])] =
        [[], [(1, ["a", "b", "c"])]] ∧
      ∃ b ∈ TwigaCoreIndex.hasherBatches 2 [(1, ["a", "b", "c"])],
        2 < TwigaCoreIndex.batchWords b :=
  ⟨by decide, by decide⟩

/-- C8 (amended): the word budget bounds every sub-batch provided no single
document exceeds the budget on its own. -/
theorem c8_batch_budget (maxW : Nat) (docs : List (Nat × List String))
    (h : ∀ t ∈ docs, t.2.length ≤ maxW) :
    ∀ b ∈ TwigaCoreIndex.hasherBatches maxW docs,
      TwigaCoreIndex.batchWords b ≤ maxW :=
  TwigaCoreIndex.hasherBatches_bound maxW docs h

/-- C8 (witness): the bound applied to a concrete two-document batch. -/
theorem c8_witness :
    TwigaCoreIndex.batchWords [(1, ["a"])] ≤ 2 :=
  c8_batch_budget 2 [(1, ["a"]), (2, ["b", "c"])] (by decide) [(1, ["a"])]
    (by decide)

/-- C9 (counterexample): twiga_core.twiga_single_word_searcher always emits
LIMIT results_number, so limit 0 yields zero rows and null even though a
qualifying text exists; the twiga_core_search.py variant returns it. -/
theorem c9_counterexample :
    TwigaCore.twiga_single_word_searcher tblOne wcOne 0 = none ∧
      TwigaCoreSearch.twiga_single_word_searcher tblOne wcOne 0 =
        some [⟨1, 1, some 1, some 100000⟩] :=
  ⟨by decide, by decide⟩

/-- C9 (amended): LIMIT 0 means unlimited for the twiga_core_search.py
searchers, which omit the LIMIT clause: with a non-empty postings table the
single-word searcher returns one row per distinct text — never null, never
truncated. -/
theorem c9_limit_zero_unlimited (tbl : List PostRow) (wc : List (Nat × Nat))
    (h : tbl ≠ []) :
    ∃ rows, TwigaCoreSearch.twiga_single_word_searcher tbl wc 0 = some rows ∧
      rows.length = (textIds tbl).length ∧
      ∀ d ∈ textIds tbl, ∃ r ∈ rows, r.text_id = d := by
  unfold TwigaCoreSearch.twiga_single_word_searcher
  simp only [Nat.lt_irrefl, if_false]
  have hperm := sortByFreq_perm (singleRows tbl wc)
  have hlen : (sortByFreq (singleRows tbl wc)).length = (textIds tbl).length := by
    rw [hperm.length_eq]
    unfold singleRows
    rw [List.length_map]
  have htne : textIds tbl ≠ [] := by
    rcases tbl with _ | ⟨r, rest⟩
    · exact absurd rfl h
    · intro hc
      unfold textIds at hc
      rw [List.dedup_eq_nil] at hc
      simp at hc
  have hne : ¬(sortByFreq (singleRows tbl wc)).isEmpty := by
    intro hc
    rw [List.isEmpty_iff] at hc
    rw [hc] at hlen
    simp at hlen
    exact htne (List.length_eq_zero.mp hlen.symm)
  rw [if_neg hne]
  refine ⟨_, rfl, hlen, fun d hd => ?_⟩
  exact ⟨mkRow wc d (firstPositions tbl d),
    hperm.mem_iff.mpr (List.mem_map.mpr ⟨d, hd, rfl⟩), rfl⟩

/-- C9 (witness): the unlimited single-word search over a one-text table. -/
theorem c9_witness :
    ∃ rows, TwigaCoreSearch.twiga_single_word_searcher tblOne wcOne 0 = some rows ∧
      rows.length = (textIds tblOne).length ∧
      ∀ d ∈ textIds tblOne, ∃ r ∈ rows, r.text_id = d :=
  c9_limit_zero_unlimited tblOne wcOne (by decide)

/-- C10: the search-side request hasher of twiga_core_search.py applies no
stopword filter — every pre-tokenized token contributes exactly one hash, so
a query of only stopwords still hashes to a non-empty list, while the index
writer's stopword filter strips the same tokens entirely. -/
theorem c10_no_stopword_filter (stopword_set : List String)
    (pre_tokenized : List String) (h1 : pre_tokenized ≠ [])
    (h2 : ∀ w ∈ pre_tokenized, w ∈ stopword_set) :
    (TwigaCoreSearch.twiga_request_hasher pre_tokenized).length =
        pre_tokenized.length ∧
      TwigaCoreSearch.twiga_request_hasher pre_tokenized ≠ [] ∧
      TwigaCoreIndex.filteredWords stopword_set pre_tokenized = [] := by
  refine ⟨List.length_map _ _, ?_, ?_⟩
  · intro hc
    have hlen := congrArg List.length hc
    unfold TwigaCoreSearch.twiga_request_hasher at hlen
    rw [List.length_map] at hlen
    exact h1 (List.length_eq_zero.mp (by simpa using hlen))
  · unfold TwigaCoreIndex.filteredWords
    rw [List.filter_eq_nil_iff]
    intro w hw hcontr
    have hcont : stopword_set.contains w = true := by
      rw [List.contains_iff_exists_mem_beq]
      exact ⟨w, h2 w hw, by simp⟩
    rw [hcont] at hcontr
    simp at hcontr

/-- C10 (witness): a query consisting of one stopword. -/
theorem c10_witness :
    (TwigaCoreSearch.twiga_request_hasher ["the"]).length = (["the"] : List String).length ∧
      TwigaCoreSearch.twiga_request_hasher ["the"] ≠ [] ∧
      TwigaCoreIndex.filteredWords ["the"] ["the"] = [] :=
  c10_no_stopword_filter ["the"] ["the"] (by decide) (by decide)
